import Mathlib

/-!
Shallow embedding of `src/sheduler.py` (Intelligent CPU Scheduler Simulator,
console version): the `Process` record, the `reset_processes` and
`compute_metrics` helpers, and the four scheduling algorithms `fcfs`,
`sjf_non_preemptive`, `priority_non_preemptive` and `round_robin`.

Python mutates `Process` objects shared between the caller's list and the
algorithms' private sorted copies / ready queues.  The embedding keeps one
`List Process` in the caller's original order and lets sorted orders and
ready queues hold *indices* into that list, so aliasing is modelled exactly.
The two `while`-loop schedulers (SJF/priority and round robin) are given
fuel and return `Option`; the fuel chosen in the entry points is large
enough for every run that terminates in the source.  Python `float`
averages are modelled as `Rat` (the totals are integers, so the division is
exact).
-/

namespace Scheduler

/-- The `Process` dataclass of `src/sheduler.py` (lines 35-47): static
inputs `pid`, `arrival_time`, `burst_time`, `priority`, and the mutable
simulation fields, each `Optional` (Python `None` = `Option.none`). -/
structure Process where
  pid : String
  arrival_time : Int
  burst_time : Int
  priority : Int
  start_time : Option Int
  completion_time : Option Int
  waiting_time : Option Int
  turnaround_time : Option Int
  remaining_time : Option Int
deriving DecidableEq, Repr

/-- A freshly constructed record, as `Process(pid=..., arrival_time=...,
burst_time=..., priority=...)` builds it: all mutable fields default to
`None`. -/
def mkProcess (pid : String) (arrival burst prio : Int) : Process :=
  ⟨pid, arrival, burst, prio, none, none, none, none, none⟩

instance : Inhabited Process := ⟨mkProcess "" 0 0 0⟩

/-- A Gantt block `(start_time, end_time, pid)` (line 51). -/
abbrev GanttBlock := Int × Int × String

/-- Read the record at index `i` (Python list indexing; indices used by the
algorithms are always in range, so the default is never consulted). -/
def getP (ps : List Process) (i : Nat) : Process := ps.getD i default

/-- `reset_processes` body for one record (lines 58-65). -/
def resetP (p : Process) : Process :=
  { p with start_time := none, completion_time := none, waiting_time := none,
           turnaround_time := none, remaining_time := some p.burst_time }

/-- `reset_processes(processes)` (lines 58-65): clear the runtime fields of
every record and set `remaining_time = burst_time`. -/
def reset_processes (ps : List Process) : List Process := ps.map resetP

/-- The loop of `compute_metrics` (lines 75-82): walk the records, skip
those with `completion_time = None`, otherwise overwrite
`turnaround_time`/`waiting_time` and add them to the running totals.
Returns the updated records together with `(total_waiting,
total_turnaround)`. -/
def metricsLoop : List Process → List Process × Int × Int
  | [] => ([], 0, 0)
  | p :: rest =>
    match p.completion_time with
    | none =>
      let r := metricsLoop rest
      (p :: r.1, r.2)
    | some c =>
      let tat := c - p.arrival_time
      let wt := tat - p.burst_time
      let p' := { p with turnaround_time := some tat, waiting_time := some wt }
      let r := metricsLoop rest
      (p' :: r.1, wt + r.2.1, tat + r.2.2)

/-- `compute_metrics(processes)` (lines 69-90): returns the mutated records
and the pair `(avg_waiting_time, avg_turnaround_time)`, dividing the totals
by the number of *all* records, with `0.0` for an empty list. -/
def compute_metrics (ps : List Process) : List Process × Rat × Rat :=
  let r := metricsLoop ps
  let n := ps.length
  (r.1,
   if 0 < n then (r.2.1 : Rat) / (n : Rat) else 0,
   if 0 < n then (r.2.2 : Rat) / (n : Rat) else 0)

/-- Insert `x` into `l` after every element `y` with `le y x`: the
insertion step of a stable insertion sort. -/
def insertSorted (le : α → α → Bool) (x : α) : List α → List α
  | [] => [x]
  | y :: ys => if le y x then y :: insertSorted le x ys else x :: y :: ys

/-- Python's stable `sorted` under a total preorder `le`: insertion sort
processing the list left to right, each element placed after the elements
already placed that compare `le` to it, so elements with equal keys keep
their original relative order. -/
def sortBy (le : α → α → Bool) (l : List α) : List α :=
  l.foldl (fun acc x => insertSorted le x acc) []

/-- The sort key comparison of `fcfs` (line 173): Python's stable `sorted`
with key `(arrival_time, pid)`, lexicographically. -/
def fcfsLe (recs : List Process) (i j : Nat) : Bool :=
  decide ((getP recs i).arrival_time < (getP recs j).arrival_time ∨
    ((getP recs i).arrival_time = (getP recs j).arrival_time ∧
      (getP recs i).pid ≤ (getP recs j).pid))

/-- The `for p in procs` loop of `fcfs` (lines 176-185), over the sorted
index list: emit an idle block when the clock trails the arrival, then run
the process to completion. -/
def fcfsLoop : List Process → List Nat → Int → List GanttBlock →
    List Process × Int × List GanttBlock
  | recs, [], time, tl => (recs, time, tl)
  | recs, j :: rest, time, tl =>
    let p := getP recs j
    let time1 := if time < p.arrival_time then p.arrival_time else time
    let tl1 := if time < p.arrival_time then tl ++ [((time, p.arrival_time, "Idle") : GanttBlock)] else tl
    let p1 := { p with start_time := some time1,
                       completion_time := some (time1 + p.burst_time) }
    fcfsLoop (recs.set j p1) rest (time1 + p.burst_time)
      (tl1 ++ [((time1, time1 + p.burst_time, p.pid) : GanttBlock)])

/-- `fcfs(processes)` (lines 167-188): reset, sort by `(arrival_time, pid)`,
run the loop from clock `0`, then `compute_metrics`.  Returns the records
(in the caller's original order, as Python leaves them) and the schedule. -/
def fcfs (ps : List Process) : List Process × List GanttBlock :=
  let recs := reset_processes ps
  let order := sortBy (fcfsLe recs) (List.range ps.length)
  let r := fcfsLoop recs order 0 []
  ((compute_metrics r.1).1, r.2.2)

/-- Lexicographic strict order on the `(Int, Int, String)` selection keys,
as Python compares key tuples. -/
def keyLt (a b : Int × Int × String) : Prop :=
  a.1 < b.1 ∨ (a.1 = b.1 ∧ (a.2.1 < b.2.1 ∨ (a.2.1 = b.2.1 ∧ a.2.2 < b.2.2)))

instance (a b : Int × Int × String) : Decidable (keyLt a b) := by
  unfold keyLt; infer_instance

/-- Python's `min(ready, key=...)` over a non-empty list of records
addressed by index: the first index whose record's key is minimal.  `best`
is the running minimum. -/
def minIdxByKey (k : Process → Int × Int × String) (recs : List Process) :
    Nat → List Nat → Nat
  | best, [] => best
  | best, i :: rest =>
    minIdxByKey k recs
      (if keyLt (k (getP recs i)) (k (getP recs best)) then i else best) rest

/-- The selection key of `sjf_non_preemptive` (line 217). -/
def sjfKey (p : Process) : Int × Int × String := (p.burst_time, p.arrival_time, p.pid)

/-- The selection key of `priority_non_preemptive` (line 322). -/
def prioKey (p : Process) : Int × Int × String := (p.priority, p.arrival_time, p.pid)

/-- Minimum of a non-empty integer list, Python's `min`; `0` for `[]`
(never consulted on an empty list in the source). -/
def listMinD : List Int → Int
  | [] => 0
  | x :: xs => xs.foldl min x

/-- The ready list of the SJF/priority loop (lines 204, 309): indices of
records that have arrived and not completed, in the order of the caller's
list (Python's `[p for p in remaining if ...]` walks the aliased copy of
the caller's list in that order). -/
def readyIdx (recs : List Process) (time : Int) : List Nat :=
  (List.range recs.length).filter
    (fun i => (getP recs i).completion_time.isNone && decide ((getP recs i).arrival_time ≤ time))

/-- The shared `while completed < n` loop of `sjf_non_preemptive`
(lines 202-223) and `priority_non_preemptive` (lines 308-328), parametrised
by the selection key.  Fuelled; `none` models a run that exceeds the fuel
(never the case for the fuel supplied by the entry points). -/
def selectLoop (k : Process → Int × Int × String) :
    Nat → List Process → Int → Nat → List GanttBlock →
    Option (List Process × List GanttBlock)
  | 0, _, _, _, _ => none
  | Nat.succ fuel, recs, time, completed, tl =>
    if completed < recs.length then
      match readyIdx recs time with
      | [] =>
        let next_arrivals := (recs.filter (fun p => p.completion_time.isNone)).map
          (fun p => p.arrival_time)
        if next_arrivals = [] then some (recs, tl)
        else
          let next_time := listMinD next_arrivals
          selectLoop k fuel recs next_time completed
            (tl ++ [((time, next_time, "Idle") : GanttBlock)])
      | i :: is =>
        let j := minIdxByKey k recs i is
        let p := getP recs j
        let p' := { p with start_time := some time,
                           completion_time := some (time + p.burst_time) }
        selectLoop k fuel (recs.set j p') (time + p.burst_time)
          (completed + 1)
          (tl ++ [((time, time + p.burst_time, p.pid) : GanttBlock)])
    else some (recs, tl)

/-- `sjf_non_preemptive(processes)` (lines 191-226): reset, start the clock
at the minimum arrival time (0 if empty), run the selection loop with key
`(burst_time, arrival_time, pid)`, then `compute_metrics`. -/
def sjf_non_preemptive (ps : List Process) : Option (List Process × List GanttBlock) :=
  let recs := reset_processes ps
  let time0 := if recs.isEmpty then 0 else listMinD (recs.map (fun p => p.arrival_time))
  match selectLoop sjfKey (2 * ps.length + 1) recs time0 0 [] with
  | some r => some ((compute_metrics r.1).1, r.2)
  | none => none

/-- `priority_non_preemptive(processes)` (lines 297-331): identical loop
with key `(priority, arrival_time, pid)`. -/
def priority_non_preemptive (ps : List Process) : Option (List Process × List GanttBlock) :=
  let recs := reset_processes ps
  let time0 := if recs.isEmpty then 0 else listMinD (recs.map (fun p => p.arrival_time))
  match selectLoop prioKey (2 * ps.length + 1) recs time0 0 [] with
  | some r => some ((compute_metrics r.1).1, r.2)
  | none => none

/-- State of the round-robin loop (lines 242-246): the records, the not yet
admitted indices (the suffix of the arrival-sorted order from the cursor
`i` on), the clock, the FIFO ready queue of indices, and the schedule. -/
structure RRState where
  recs : List Process
  pending : List Nat
  time : Int
  queue : List Nat
  schedule : List GanttBlock
deriving DecidableEq, Repr

/-- The admission `while` loop of `round_robin` (lines 248-251 and
282-285): admit every pending index whose arrival time has passed,
appending it to the ready queue and setting `remaining_time =
burst_time`. -/
def rrAdmit (recs : List Process) (time : Int) :
    List Nat → List Nat → List Process × List Nat × List Nat
  | [], queue => (recs, [], queue)
  | j :: rest, queue =>
    if (getP recs j).arrival_time ≤ time then
      let recs' := recs.set j
        { getP recs j with remaining_time := some (getP recs j).burst_time }
      rrAdmit recs' time rest (queue ++ [j])
    else (recs, j :: rest, queue)

/-- One iteration of the `while i < n or ready_queue` loop of `round_robin`
(lines 246-291).  `none` is the loop exiting (the `while` condition false,
or the `break` of line 262); `some` is the state at the next iteration. -/
def rrStep (q : Int) (s : RRState) : Option RRState :=
  if s.pending = [] ∧ s.queue = [] then none
  else
    let a := rrAdmit s.recs s.time s.pending s.queue
    let recs := a.1
    let pending := a.2.1
    match a.2.2 with
    | [] =>
      match pending with
      | [] => none
      | j :: rest =>
        let next_arrival := (getP recs j).arrival_time
        if s.time < next_arrival then
          some ⟨recs, j :: rest, next_arrival, [],
                s.schedule ++ [((s.time, next_arrival, "Idle") : GanttBlock)]⟩
        else some ⟨recs, j :: rest, s.time, [], s.schedule⟩
    | c :: queue1 =>
      let cur0 := getP recs c
      let cur1 :=
        if cur0.start_time = none then
          { cur0 with start_time := some s.time,
                      remaining_time :=
                        if cur0.remaining_time = none then some cur0.burst_time
                        else cur0.remaining_time }
        else cur0
      let rem := cur1.remaining_time.getD 0
      let run := min q rem
      let time2 := s.time + run
      let recs2 := recs.set c { cur1 with remaining_time := some (rem - run) }
      let sched2 := s.schedule ++ [((s.time, time2, cur0.pid) : GanttBlock)]
      let a2 := rrAdmit recs2 time2 pending queue1
      let recs3 := a2.1
      let pending3 := a2.2.1
      let queue3 := a2.2.2
      if 0 < rem - run then
        some ⟨recs3, pending3, time2, queue3 ++ [c], sched2⟩
      else
        some ⟨recs3.set c { getP recs3 c with completion_time := some time2 },
              pending3, time2, queue3, sched2⟩

/-- The fuelled iteration of `rrStep`: runs the loop to its exit, `none` on
fuel exhaustion. -/
def rrLoop (q : Int) : Nat → RRState → Option RRState
  | 0, _ => none
  | Nat.succ fuel, s =>
    match rrStep q s with
    | none => some s
    | some s' => rrLoop q fuel s'

/-- The arrival-time comparison of `round_robin`'s initial sort
(line 238). -/
def rrLe (recs : List Process) (i j : Nat) : Bool :=
  decide ((getP recs i).arrival_time ≤ (getP recs j).arrival_time)

/-- The initial state of the round-robin loop for a reset record list:
indices sorted (stably) by arrival time, the clock at the first sorted
process's arrival time (0 if there are none), empty queue, empty
schedule. -/
def rrInit (ps : List Process) : RRState :=
  let recs := reset_processes ps
  let order := sortBy (rrLe recs) (List.range ps.length)
  let time0 := match order with
    | [] => 0
    | j :: _ => (getP recs j).arrival_time
  ⟨recs, order, time0, [], []⟩

/-- Fuel that dominates the number of loop iterations of any terminating
`round_robin` run: each slice iteration strictly shrinks the total
outstanding work, each idle iteration is followed by an admission. -/
def rrFuel (ps : List Process) : Nat :=
  1 + 2 * ps.length + 2 * (ps.map (fun p => p.burst_time.toNat)).sum

/-- `round_robin(processes, quantum)` (lines 229-294): raise `ValueError`
("Quantum must be > 0") for a non-positive quantum before touching any
record; otherwise reset, sort by arrival, run the loop, then
`compute_metrics`. -/
def round_robin (ps : List Process) (q : Int) :
    Except String (List Process × List GanttBlock) :=
  if q ≤ 0 then Except.error "Quantum must be > 0"
  else
    match rrLoop q (rrFuel ps) (rrInit ps) with
    | some s => Except.ok ((compute_metrics s.recs).1, s.schedule)
    | none => Except.error "fuel exhausted"

/-- The caller's view of the record list after `round_robin(ps, q)`: the
mutated records on a normal return, the unchanged input when the call
raises (Python's exception leaves the caller's list as it was). -/
def recordsAfterRR (ps : List Process) (q : Int) : List Process :=
  match round_robin ps q with
  | Except.ok r => r.1
  | Except.error _ => ps

/-- The worked example of the spec (§8): `P1(arrival=0,burst=4)`,
`P2(arrival=1,burst=3)`, `P3(arrival=2,burst=1)`. -/
def exC : List Process :=
  [mkProcess "P1" 0 4 0, mkProcess "P2" 1 3 0, mkProcess "P3" 2 1 0]

/-- The timeline component of `round_robin`, `none` when the call fails. -/
def rrTimeline (ps : List Process) (q : Int) : Option (List GanttBlock) :=
  match round_robin ps q with
  | Except.ok r => some r.2
  | Except.error _ => none

/-- Agreement of two records on the static input fields `pid`,
`arrival_time`, `burst_time`, `priority` of the Process dataclass. -/
def SameStatic (a b : Process) : Prop :=
  a.pid = b.pid ∧ a.arrival_time = b.arrival_time ∧
    a.burst_time = b.burst_time ∧ a.priority = b.priority

/-- Frame relation between the caller's record list and a record list an
engine operation hands back: same length, and position by position the
static fields are untouched — no element added, removed or reordered. -/
def StaticOK (ps rs : List Process) : Prop :=
  ps.length = rs.length ∧ ∀ i : Nat, SameStatic (getP ps i) (getP rs i)

/-- A property of the payload of a successful `Except` result, trivially
true of a failure. -/
def OnOk : Except ε α → (α → Prop) → Prop
  | Except.ok x, P => P x
  | Except.error _, _ => True

/-- A property of the payload of a `some`, trivially true of `none`. -/
def OnSome : Option α → (α → Prop) → Prop
  | some x, P => P x
  | none, _ => True

/-- Per-record effect of `compute_metrics` as the spec states it: a record
with no `completion_time` is skipped (left untouched), a completed record
has `turnaround_time = completion_time - arrival_time` and `waiting_time =
turnaround_time - burst_time` written. -/
def metricsUpdateP (p : Process) : Process :=
  match p.completion_time with
  | none => p
  | some c => { p with turnaround_time := some (c - p.arrival_time),
                       waiting_time := some (c - p.arrival_time - p.burst_time) }

/-- The waiting-time total accumulated by `compute_metrics`: only records
with a set `completion_time` contribute. -/
def completedWaitingTotal (ps : List Process) : Int :=
  (ps.filterMap (fun p =>
    p.completion_time.map (fun c => c - p.arrival_time - p.burst_time))).sum

/-- The turnaround-time total accumulated by `compute_metrics`: only
records with a set `completion_time` contribute. -/
def completedTurnaroundTotal (ps : List Process) : Int :=
  (ps.filterMap (fun p => p.completion_time.map (fun c => c - p.arrival_time))).sum

/-- Well-formed engine input, as the spec's §3/§7 assume it: positive burst
times, non-negative arrival times, pids unique and distinct from the
reserved idle marker `"Idle"` (§3 reserves the idle label; a pid equal to
it would make timeline labels ambiguous). -/
def WF (ps : List Process) : Prop :=
  (∀ p ∈ ps, 0 < p.burst_time ∧ 0 ≤ p.arrival_time ∧ p.pid ≠ "Idle") ∧
    (ps.map (fun p => p.pid)).Nodup

instance (ps : List Process) : Decidable (WF ps) := by
  unfold WF; infer_instance

/-- The timeline blocks carrying a given label. -/
def pidBlocks (tl : List GanttBlock) (pid : String) : List GanttBlock :=
  tl.filter (fun b => b.2.2 = pid)

/-- Invariant of the non-preemptive loops: a record without
`completion_time` has no timeline block carrying its pid yet, and a
completed record's pid labels exactly one block — the single uninterrupted
interval of length `burst_time` starting at its `start_time`. -/
def SingleRun (recs : List Process) (tl : List GanttBlock) : Prop :=
  ∀ i, i < recs.length →
    ((getP recs i).completion_time = none →
      pidBlocks tl (getP recs i).pid = []) ∧
    ((getP recs i).completion_time ≠ none →
      ∃ s, (getP recs i).start_time = some s ∧
        pidBlocks tl (getP recs i).pid =
          [(s, s + (getP recs i).burst_time, (getP recs i).pid)])

/-- The full result of `sjf_non_preemptive` on the worked example
(records in caller order, then timeline). -/
def exSjfR : List Process × List GanttBlock :=
  ([⟨"P1", 0, 4, 0, some 0, some 4, some 0, some 4, some 4⟩,
    ⟨"P2", 1, 3, 0, some 5, some 8, some 4, some 7, some 3⟩,
    ⟨"P3", 2, 1, 0, some 4, some 5, some 2, some 3, some 1⟩],
   [(0, 4, "P1"), (4, 5, "P3"), (5, 8, "P2")])

/-- The spec's per-record invariant before the derived fields are written:
`start_time` and `completion_time` are set, with
`arrival_time ≤ start_time ≤ completion_time` and
`arrival_time + burst_time ≤ completion_time`. -/
def CoreInv (p : Process) : Prop :=
  ∃ s c, p.start_time = some s ∧ p.completion_time = some c ∧
    p.arrival_time ≤ s ∧ s ≤ c ∧ p.arrival_time + p.burst_time ≤ c

/-- The spec's full per-record invariant after an algorithm completes
(§8): all four derived fields set, `completion_time ≥ start_time ≥
arrival_time`, `turnaround_time = completion_time − arrival_time`,
`waiting_time = turnaround_time − burst_time ≥ 0`. -/
def RecordInv (p : Process) : Prop :=
  ∃ s c tat wt, p.start_time = some s ∧ p.completion_time = some c ∧
    p.turnaround_time = some tat ∧ p.waiting_time = some wt ∧
    p.arrival_time ≤ s ∧ s ≤ c ∧ tat = c - p.arrival_time ∧
    wt = tat - p.burst_time ∧ 0 ≤ wt

/-- Adjacent timeline blocks are contiguous: each block ends exactly where
the next one starts. -/
def Chained : List GanttBlock → Prop
  | [] => True
  | [_] => True
  | a :: b :: t => a.2.1 = b.1 ∧ Chained (b :: t)

/-- The end instant of the last block (0 for an empty timeline). -/
def lastEnd : List GanttBlock → Int
  | [] => 0
  | [b] => b.2.1
  | _ :: b :: t => lastEnd (b :: t)

/-- All `start_time` values recorded in a record list. -/
def recordedStarts (rs : List Process) : List Int :=
  rs.filterMap (fun p => p.start_time)

/-- All `completion_time` values recorded in a record list. -/
def recordedCompletions (rs : List Process) : List Int :=
  rs.filterMap (fun p => p.completion_time)

/-- The start instants of the idle blocks of a timeline. -/
def idleStarts (tl : List GanttBlock) : List Int :=
  (tl.filter (fun b => b.2.2 = "Idle")).map (fun b => b.1)

/-- Maximum of a non-empty integer list; `0` for `[]`. -/
def listMaxD : List Int → Int
  | [] => 0
  | x :: xs => xs.foldl max x

/-- The spec's timeline shape (§3, §8): contiguous non-overlapping
intervals with `end > start`, and a non-empty timeline covers exactly
`[min(start_time over processes ∪ idle starts), final completion_time)`:
its first block starts at that minimum and its last block ends at the
maximal recorded completion time. -/
def TimelineOK (rs : List Process) (tl : List GanttBlock) : Prop :=
  Chained tl ∧ (∀ b ∈ tl, b.1 < b.2.1) ∧
    (tl ≠ [] →
      (tl.headD default).1 = listMinD (recordedStarts rs ++ idleStarts tl) ∧
        lastEnd tl = listMaxD (recordedCompletions rs))

/-- Mid-loop invariant shared by the three scheduling loops, for a run
whose first block starts at `t0`: the clock never runs backwards past
`t0`, recorded completions and starts are bounded by the clock, the
schedule is a chain of positive-length blocks ending at the clock, its
first block starts at `t0`, `t0` is a recorded start or an idle start, and
(for the covering argument) the clock instant is witnessed by a completed
record or by an unfinished record that has already arrived. -/
def MidOK (t0 : Int) (recs : List Process) (time : Int) (tl : List GanttBlock) : Prop :=
  t0 ≤ time ∧
    (∀ i, i < recs.length → ∀ c, (getP recs i).completion_time = some c → c ≤ time) ∧
    (∀ i, i < recs.length → ∀ st, (getP recs i).start_time = some st →
      t0 ≤ st ∧ st ≤ time) ∧
    Chained tl ∧ (∀ b ∈ tl, b.1 < b.2.1) ∧
    ((tl = [] ∧ time = t0) ∨ (tl ≠ [] ∧ lastEnd tl = time)) ∧
    (tl ≠ [] → (tl.headD default).1 = t0 ∧
      (t0 ∈ recordedStarts recs ∨ t0 ∈ idleStarts tl)) ∧
    (tl ≠ [] →
      (∃ i, i < recs.length ∧ (getP recs i).completion_time = some time) ∨
        (∃ i, i < recs.length ∧ (getP recs i).completion_time = none ∧
          (getP recs i).arrival_time ≤ time))

/-- State of a finished run: every record satisfies the core invariant and
the timeline is a chain of positive blocks running from `t0` — which is
the minimum of recorded starts and idle starts — to the maximal recorded
completion time. -/
def FinalOK (t0 : Int) (recs : List Process) (tl : List GanttBlock) : Prop :=
  (∀ i, i < recs.length → CoreInv (getP recs i)) ∧
    Chained tl ∧ (∀ b ∈ tl, b.1 < b.2.1) ∧
    (tl ≠ [] →
      (tl.headD default).1 = t0 ∧
        t0 ∈ recordedStarts recs ++ idleStarts tl ∧
        (∀ x ∈ recordedStarts recs ++ idleStarts tl, t0 ≤ x) ∧
        lastEnd tl ∈ recordedCompletions recs ∧
        (∀ x ∈ recordedCompletions recs, x ≤ lastEnd tl))

/-- Facts about the not-yet-admitted indices of the round-robin loop:
valid, untouched since the reset (no completion, no start,
`remaining_time = burst_time`). -/
def PendOK (recs : List Process) (pending : List Nat) : Prop :=
  ∀ j ∈ pending, j < recs.length ∧
    (getP recs j).completion_time = none ∧
    (getP recs j).start_time = none ∧
    (getP recs j).remaining_time = some (getP recs j).burst_time

/-- Facts about the ready-queue indices of the round-robin loop: valid,
uncompleted, arrived, with at least one unit of work left and an executed
amount (`burst_time - remaining`) that fits between their arrival and the
clock; a recorded start lies at or after the arrival. -/
def QueueOK (recs : List Process) (time : Int) (queue : List Nat) : Prop :=
  ∀ j ∈ queue, j < recs.length ∧
    (getP recs j).completion_time = none ∧
    (getP recs j).arrival_time ≤ time ∧
    (∀ st, (getP recs j).start_time = some st → (getP recs j).arrival_time ≤ st) ∧
    ∃ rm, (getP recs j).remaining_time = some rm ∧ 1 ≤ rm ∧
      (getP recs j).arrival_time + ((getP recs j).burst_time - rm) ≤ time

/-- Records neither pending nor queued are finished with the core
invariant. -/
def DoneOK (recs : List Process) (pending queue : List Nat) : Prop :=
  ∀ i, i < recs.length → i ∉ pending → i ∉ queue → CoreInv (getP recs i)

/-- The full round-robin loop invariant: record bounds and timeline shape
(`MidOK`), plus the pending/queue/done partition facts. -/
def RROK (t0 : Int) (s : RRState) : Prop :=
  (∀ p ∈ s.recs, 0 < p.burst_time) ∧
    PendOK s.recs s.pending ∧
    QueueOK s.recs s.time s.queue ∧
    DoneOK s.recs s.pending s.queue ∧
    (s.pending ++ s.queue).Nodup ∧
    (s.schedule = [] → ∀ j ∈ s.queue, (getP s.recs j).start_time = none) ∧
    MidOK t0 s.recs s.time s.schedule

/-- A record list with one never-scheduled record (no `completion_time`)
and one completed record, exercising `compute_metrics`'s skip path. -/
def exW : List Process :=
  [mkProcess "A" 0 2 0, ⟨"B", 1, 3, 0, some 1, some 5, none, none, none⟩]

/-!  ## Theorems  -/

theorem sameStatic_refl (p : Process) : SameStatic p p := ⟨rfl, rfl, rfl, rfl⟩

theorem sameStatic_trans {a b c : Process} (h1 : SameStatic a b)
    (h2 : SameStatic b c) : SameStatic a c := by
  obtain ⟨h1a, h1b, h1c, h1d⟩ := h1
  obtain ⟨h2a, h2b, h2c, h2d⟩ := h2
  exact ⟨h1a.trans h2a, h1b.trans h2b, h1c.trans h2c, h1d.trans h2d⟩

theorem staticOK_refl (ps : List Process) : StaticOK ps ps :=
  ⟨rfl, fun i => sameStatic_refl _⟩

theorem staticOK_trans {ps rs ts : List Process} (h1 : StaticOK ps rs)
    (h2 : StaticOK rs ts) : StaticOK ps ts :=
  ⟨h1.1.trans h2.1, fun i => sameStatic_trans (h1.2 i) (h2.2 i)⟩

theorem getP_set (rs : List Process) (j i : Nat) (p' : Process) :
    getP (rs.set j p') i =
      if j = i ∧ j < rs.length then p' else getP rs i := by
  simp only [getP, List.getD_eq_getElem?_getD, List.getElem?_set]
  by_cases h1 : j = i
  · subst h1
    by_cases h2 : j < rs.length
    · simp [h2]
    · simp [h2, List.getElem?_eq_none (Nat.le_of_not_lt h2)]
  · simp [h1]

theorem staticOK_set {ps rs : List Process} {j : Nat} {p' : Process}
    (h : StaticOK ps rs) (hp : SameStatic (getP rs j) p') :
    StaticOK ps (rs.set j p') := by
  refine ⟨h.1.trans (List.length_set rs j p').symm, fun i => ?_⟩
  rw [getP_set]
  by_cases hc : j = i ∧ j < rs.length
  · rw [if_pos hc]
    exact sameStatic_trans (hc.1 ▸ h.2 i) (hc.1 ▸ hp)
  · rw [if_neg hc]
    exact h.2 i

theorem staticOK_resetP (ps : List Process) : StaticOK ps (reset_processes ps) := by
  refine ⟨(List.length_map ps resetP).symm, fun i => ?_⟩
  simp only [getP, reset_processes, List.getD_eq_getElem?_getD, List.getElem?_map]
  cases hi : ps[i]? with
  | none => exact sameStatic_refl _
  | some p => exact ⟨rfl, rfl, rfl, rfl⟩

theorem resetP_congr {a b : Process} (h : SameStatic a b) : resetP a = resetP b := by
  obtain ⟨h1, h2, h3, h4⟩ := h
  cases a; cases b
  simp only [resetP]
  simp_all

theorem reset_congr {ps rs : List Process} (h : StaticOK ps rs) :
    reset_processes rs = reset_processes ps := by
  apply List.ext_getElem?
  intro i
  simp only [reset_processes, List.getElem?_map]
  by_cases hi : i < ps.length
  · have hir : i < rs.length := h.1 ▸ hi
    rw [List.getElem?_eq_getElem hi, List.getElem?_eq_getElem hir]
    have := h.2 i
    simp only [getP, List.getD_eq_getElem?_getD, List.getElem?_eq_getElem hi,
      List.getElem?_eq_getElem hir, Option.getD_some] at this
    simp [resetP_congr this]
  · have hir : ¬ i < rs.length := h.1 ▸ hi
    simp [List.getElem?_eq_none (Nat.le_of_not_lt hi),
      List.getElem?_eq_none (Nat.le_of_not_lt hir)]

theorem staticOK_cons {p p' : Process} {ps rs : List Process}
    (hp : SameStatic p p') (h : StaticOK ps rs) :
    StaticOK (p :: ps) (p' :: rs) := by
  refine ⟨by simp [h.1], fun i => ?_⟩
  cases i with
  | zero => simpa [getP] using hp
  | succ n => simpa [getP, List.getD_cons_succ] using h.2 n

theorem metricsLoop_static (rs : List Process) : StaticOK rs (metricsLoop rs).1 := by
  induction rs with
  | nil => exact staticOK_refl []
  | cons p rest ih =>
    cases hc : p.completion_time with
    | none =>
      simp only [metricsLoop, hc]
      exact staticOK_cons (sameStatic_refl p) ih
    | some c =>
      simp only [metricsLoop, hc]
      exact staticOK_cons ⟨rfl, rfl, rfl, rfl⟩ ih

theorem compute_metrics_static (rs : List Process) :
    StaticOK rs (compute_metrics rs).1 := metricsLoop_static rs

theorem fcfsLoop_static {ps : List Process} :
    ∀ (order : List Nat) {recs : List Process} (time : Int)
      (tl : List GanttBlock), StaticOK ps recs →
      StaticOK ps (fcfsLoop recs order time tl).1
  | [], _, _, _, h => h
  | j :: rest, recs, time, tl, h => by
    rw [fcfsLoop]
    exact fcfsLoop_static rest _ _ (staticOK_set h ⟨rfl, rfl, rfl, rfl⟩)

theorem selectLoop_static {k : Process → Int × Int × String} :
    ∀ (fuel : Nat) {recs : List Process} (time : Int) (completed : Nat)
      (tl : List GanttBlock) {r : List Process × List GanttBlock},
      selectLoop k fuel recs time completed tl = some r → StaticOK recs r.1 := by
  intro fuel
  induction fuel with
  | zero =>
    intro recs time completed tl r h
    simp [selectLoop] at h
  | succ fuel ih =>
    intro recs time completed tl r h
    rw [selectLoop] at h
    split at h
    · dsimp only at h
      split at h
      · split at h
        · cases h
          exact staticOK_refl recs
        · exact ih _ _ _ h
      · refine staticOK_trans ?_ (ih _ _ _ h)
        exact staticOK_set (staticOK_refl recs) ⟨rfl, rfl, rfl, rfl⟩
    · cases h
      exact staticOK_refl recs

theorem rrAdmit_static (time : Int) :
    ∀ (pending : List Nat) (recs : List Process) (queue : List Nat),
      StaticOK recs (rrAdmit recs time pending queue).1
  | [], recs, _ => staticOK_refl recs
  | j :: rest, recs, queue => by
    rw [rrAdmit]
    split
    · refine staticOK_trans ?_
        (rrAdmit_static time rest
          (recs.set j { getP recs j with remaining_time := some (getP recs j).burst_time })
          (queue ++ [j]))
      exact staticOK_set (staticOK_refl recs) ⟨rfl, rfl, rfl, rfl⟩
    · exact staticOK_refl recs

theorem rrStep_static {q : Int} {s s' : RRState} (h : rrStep q s = some s') :
    StaticOK s.recs s'.recs := by
  rw [rrStep] at h
  split at h
  · exact absurd h (by simp)
  · dsimp only at h
    have hadm := rrAdmit_static s.time s.pending s.recs s.queue
    split at h
    · split at h
      · exact absurd h (by simp)
      · split at h
        · cases h
          exact hadm
        · cases h
          exact hadm
    · set recs := (rrAdmit s.recs s.time s.pending s.queue).1 with hrecs
      split at h <;> (try split at h) <;> (try split at h) <;> cases h <;>
        first
        | (refine staticOK_set ?_ ⟨rfl, rfl, rfl, rfl⟩
           refine staticOK_trans ?_ (rrAdmit_static _ _ _ _)
           refine staticOK_trans hadm ?_
           exact staticOK_set (staticOK_refl _) ⟨rfl, rfl, rfl, rfl⟩)
        | (refine staticOK_trans ?_ (rrAdmit_static _ _ _ _)
           refine staticOK_trans hadm ?_
           exact staticOK_set (staticOK_refl _) ⟨rfl, rfl, rfl, rfl⟩)

theorem rrLoop_static {q : Int} :
    ∀ (fuel : Nat) {s s' : RRState}, rrLoop q fuel s = some s' →
      StaticOK s.recs s'.recs
  | 0, _, _, h => by simp [rrLoop] at h
  | Nat.succ fuel, s, s', h => by
    rw [rrLoop] at h
    cases hs : rrStep q s with
    | none =>
      rw [hs] at h
      cases h
      exact staticOK_refl _
    | some s1 =>
      rw [hs] at h
      exact staticOK_trans (rrStep_static hs) (rrLoop_static fuel h)

theorem metricsLoop_spec (ps : List Process) :
    metricsLoop ps =
      (ps.map metricsUpdateP, completedWaitingTotal ps, completedTurnaroundTotal ps) := by
  induction ps with
  | nil => rfl
  | cons p rest ih =>
    cases hc : p.completion_time with
    | none =>
      simp [metricsLoop, hc, ih, metricsUpdateP, completedWaitingTotal,
        completedTurnaroundTotal]
    | some c =>
      simp [metricsLoop, hc, ih, metricsUpdateP, completedWaitingTotal,
        completedTurnaroundTotal]

/-- **C7.** `compute_metrics` skips every record whose `completion_time` is
unset — leaving the record untouched and excluding it from the totals — yet
divides the totals over completed records by the count of *all* records;
with zero records both averages are `0`. -/
theorem compute_metrics_skips_incomplete (ps : List Process) :
    (compute_metrics ps).1 = ps.map metricsUpdateP ∧
      (ps ≠ [] →
        (compute_metrics ps).2.1 =
            (completedWaitingTotal ps : Rat) / (ps.length : Rat) ∧
          (compute_metrics ps).2.2 =
            (completedTurnaroundTotal ps : Rat) / (ps.length : Rat)) ∧
      (compute_metrics ([] : List Process)).2.1 = 0 ∧
      (compute_metrics ([] : List Process)).2.2 = 0 := by
  refine ⟨?_, fun hne => ?_, rfl, rfl⟩
  · simp [compute_metrics, metricsLoop_spec]
  · have hl : 0 < ps.length := List.length_pos.mpr hne
    constructor <;> simp [compute_metrics, metricsLoop_spec, hl]

/-- Witness for C7: the averaging clauses at a concrete two-record list
with one incomplete record. -/
theorem compute_metrics_skips_incomplete_witness :
    (compute_metrics exW).2.1 = (completedWaitingTotal exW : Rat) / (exW.length : Rat) ∧
      (compute_metrics exW).2.2 =
        (completedTurnaroundTotal exW : Rat) / (exW.length : Rat) :=
  (compute_metrics_skips_incomplete exW).2.1 (by decide)

theorem staticOK_fcfs (ps : List Process) : StaticOK ps (fcfs ps).1 :=
  staticOK_trans
    (fcfsLoop_static (sortBy (fcfsLe (reset_processes ps)) (List.range ps.length))
      0 [] (staticOK_resetP ps))
    (compute_metrics_static _)

theorem staticOK_sjf {ps : List Process} {r : List Process × List GanttBlock}
    (h : sjf_non_preemptive ps = some r) : StaticOK ps r.1 := by
  unfold sjf_non_preemptive at h
  dsimp only at h
  cases hsel : selectLoop sjfKey (2 * ps.length + 1) (reset_processes ps)
      (if (reset_processes ps).isEmpty then 0
       else listMinD ((reset_processes ps).map (fun p => p.arrival_time))) 0 [] with
  | none => rw [hsel] at h; cases h
  | some r0 =>
    rw [hsel] at h
    cases h
    exact staticOK_trans (staticOK_resetP ps)
      (staticOK_trans (selectLoop_static _ _ _ _ hsel) (compute_metrics_static _))

theorem staticOK_priority {ps : List Process} {r : List Process × List GanttBlock}
    (h : priority_non_preemptive ps = some r) : StaticOK ps r.1 := by
  unfold priority_non_preemptive at h
  dsimp only at h
  cases hsel : selectLoop prioKey (2 * ps.length + 1) (reset_processes ps)
      (if (reset_processes ps).isEmpty then 0
       else listMinD ((reset_processes ps).map (fun p => p.arrival_time))) 0 [] with
  | none => rw [hsel] at h; cases h
  | some r0 =>
    rw [hsel] at h
    cases h
    exact staticOK_trans (staticOK_resetP ps)
      (staticOK_trans (selectLoop_static _ _ _ _ hsel) (compute_metrics_static _))

theorem staticOK_rr {ps : List Process} {q : Int} {r : List Process × List GanttBlock}
    (h : round_robin ps q = Except.ok r) : StaticOK ps r.1 := by
  unfold round_robin at h
  split at h
  · cases h
  · cases hloop : rrLoop q (rrFuel ps) (rrInit ps) with
    | none => rw [hloop] at h; cases h
    | some s =>
      rw [hloop] at h
      cases h
      have h0 : StaticOK ps (rrInit ps).recs := staticOK_resetP ps
      exact staticOK_trans h0
        (staticOK_trans (rrLoop_static _ hloop) (compute_metrics_static _))

theorem burstNat_congr {ps rs : List Process} (h : StaticOK ps rs) :
    rs.map (fun p => p.burst_time.toNat) = ps.map (fun p => p.burst_time.toNat) := by
  apply List.ext_getElem?
  intro i
  simp only [List.getElem?_map]
  by_cases hi : i < ps.length
  · have hir : i < rs.length := h.1 ▸ hi
    rw [List.getElem?_eq_getElem hi, List.getElem?_eq_getElem hir]
    have hs := h.2 i
    simp only [getP, List.getD_eq_getElem?_getD, List.getElem?_eq_getElem hi,
      List.getElem?_eq_getElem hir, Option.getD_some] at hs
    simp [hs.2.2.1]
  · have hir : ¬ i < rs.length := h.1 ▸ hi
    simp [List.getElem?_eq_none (Nat.le_of_not_lt hi),
      List.getElem?_eq_none (Nat.le_of_not_lt hir)]

theorem fcfs_congr {ps rs : List Process} (h : StaticOK ps rs) : fcfs rs = fcfs ps := by
  unfold fcfs
  rw [reset_congr h, ← h.1]

theorem sjf_congr {ps rs : List Process} (h : StaticOK ps rs) :
    sjf_non_preemptive rs = sjf_non_preemptive ps := by
  unfold sjf_non_preemptive
  rw [reset_congr h, ← h.1]

theorem priority_congr {ps rs : List Process} (h : StaticOK ps rs) :
    priority_non_preemptive rs = priority_non_preemptive ps := by
  unfold priority_non_preemptive
  rw [reset_congr h, ← h.1]

theorem rr_congr {ps rs : List Process} (q : Int) (h : StaticOK ps rs) :
    round_robin rs q = round_robin ps q := by
  unfold round_robin rrFuel rrInit
  rw [reset_congr h, ← h.1, burstNat_congr h]

/-- **C10.** Every core operation (`fcfs`, `sjf_non_preemptive`,
`priority_non_preemptive`, `round_robin`, `compute_metrics`) leaves the
static fields `pid`, `arrival_time`, `burst_time`, `priority` of every
record unchanged and never adds, removes, or reorders elements of the
caller's record list (`StaticOK` is position-by-position agreement of the
static fields, at equal lengths). -/
theorem core_ops_frame (ps : List Process) :
    StaticOK ps (fcfs ps).1 ∧
      OnSome (sjf_non_preemptive ps) (fun r => StaticOK ps r.1) ∧
      OnSome (priority_non_preemptive ps) (fun r => StaticOK ps r.1) ∧
      (∀ q : Int, OnOk (round_robin ps q) (fun r => StaticOK ps r.1)) ∧
      StaticOK ps (compute_metrics ps).1 := by
  refine ⟨staticOK_fcfs ps, ?_, ?_, fun q => ?_, compute_metrics_static ps⟩
  · cases hs : sjf_non_preemptive ps with
    | none => exact trivial
    | some r => exact staticOK_sjf hs
  · cases hs : priority_non_preemptive ps with
    | none => exact trivial
    | some r => exact staticOK_priority hs
  · cases hs : round_robin ps q with
    | error e => exact trivial
    | ok r => exact staticOK_rr hs

/-- **C8.** Each algorithm entry point is idempotent: running it a second
time on the records produced by a first run returns exactly the first
run's result (same timeline, same final record states), because each call
resets all mutable fields before scheduling. -/
theorem algorithms_idempotent (ps : List Process) :
    fcfs (fcfs ps).1 = fcfs ps ∧
      OnSome (sjf_non_preemptive ps)
        (fun r => sjf_non_preemptive r.1 = sjf_non_preemptive ps) ∧
      OnSome (priority_non_preemptive ps)
        (fun r => priority_non_preemptive r.1 = priority_non_preemptive ps) ∧
      ∀ q : Int, OnOk (round_robin ps q)
        (fun r => round_robin r.1 q = round_robin ps q) := by
  refine ⟨fcfs_congr (staticOK_fcfs ps), ?_, ?_, fun q => ?_⟩
  · cases hs : sjf_non_preemptive ps with
    | none => exact trivial
    | some r => exact (sjf_congr (staticOK_sjf hs)).trans hs
  · cases hs : priority_non_preemptive ps with
    | none => exact trivial
    | some r => exact (priority_congr (staticOK_priority hs)).trans hs
  · cases hs : round_robin ps q with
    | error e => exact trivial
    | ok r => exact (rr_congr q (staticOK_rr hs)).trans hs

theorem keyLt_trans {a b c : Int × Int × String} (h1 : keyLt a b) (h2 : keyLt b c) :
    keyLt a c := by
  unfold keyLt at *
  rcases h1 with h1 | ⟨e1, h1⟩ <;> rcases h2 with h2 | ⟨e2, h2⟩
  · exact Or.inl (h1.trans h2)
  · exact Or.inl (e2 ▸ h1)
  · exact Or.inl (e1 ▸ h2)
  · refine Or.inr ⟨e1.trans e2, ?_⟩
    rcases h1 with h1 | ⟨f1, h1⟩ <;> rcases h2 with h2 | ⟨f2, h2⟩
    · exact Or.inl (h1.trans h2)
    · exact Or.inl (f2 ▸ h1)
    · exact Or.inl (f1 ▸ h2)
    · exact Or.inr ⟨f1.trans f2, h1.trans h2⟩

theorem keyLt_trichotomy (a b : Int × Int × String) :
    keyLt a b ∨ a = b ∨ keyLt b a := by
  obtain ⟨x1, y1, z1⟩ := a
  obtain ⟨x2, y2, z2⟩ := b
  unfold keyLt
  rcases lt_trichotomy x1 x2 with h | h | h
  · exact Or.inl (Or.inl h)
  · rcases lt_trichotomy y1 y2 with h' | h' | h'
    · exact Or.inl (Or.inr ⟨h, Or.inl h'⟩)
    · rcases lt_trichotomy z1 z2 with h'' | h'' | h''
      · exact Or.inl (Or.inr ⟨h, Or.inr ⟨h', h''⟩⟩)
      · subst h; subst h'; subst h''; exact Or.inr (Or.inl rfl)
      · exact Or.inr (Or.inr (Or.inr ⟨h.symm, Or.inr ⟨h'.symm, h''⟩⟩))
    · exact Or.inr (Or.inr (Or.inr ⟨h.symm, Or.inl h'⟩))
  · exact Or.inr (Or.inr (Or.inl h))

theorem keyLt_of_not_lt_of_lt {a b c : Int × Int × String}
    (h1 : ¬ keyLt a b) (h2 : keyLt a c) : keyLt b c := by
  rcases keyLt_trichotomy a b with h | h | h
  · exact absurd h h1
  · exact h ▸ h2
  · exact keyLt_trans h h2

theorem keyLt_irrefl (a : Int × Int × String) : ¬ keyLt a a := by
  unfold keyLt
  simp [lt_irrefl]

theorem minIdxByKey_spec (k : Process → Int × Int × String) (recs : List Process) :
    ∀ (l : List Nat) (best : Nat),
      minIdxByKey k recs best l ∈ best :: l ∧
        ∀ j ∈ best :: l,
          ¬ keyLt (k (getP recs j)) (k (getP recs (minIdxByKey k recs best l)))
  | [], best => by
    refine ⟨List.mem_singleton.mpr rfl, fun j hj => ?_⟩
    rw [List.mem_singleton] at hj
    subst hj
    exact keyLt_irrefl _
  | i :: rest, best => by
    rw [show minIdxByKey k recs best (i :: rest) =
      minIdxByKey k recs
        (if keyLt (k (getP recs i)) (k (getP recs best)) then i else best) rest from rfl]
    by_cases hlt : keyLt (k (getP recs i)) (k (getP recs best))
    · rw [if_pos hlt]
      have ih := minIdxByKey_spec k recs rest i
      constructor
      · rcases List.mem_cons.mp ih.1 with hm | hm
        · rw [hm]
          exact List.mem_cons_of_mem _ (List.mem_cons_self i rest)
        · exact List.mem_cons_of_mem _ (List.mem_cons_of_mem _ hm)
      · intro j hj
        rcases List.mem_cons.mp hj with rfl | hj'
        · intro hc
          exact ih.2 i (List.mem_cons_self i rest) (keyLt_trans hlt hc)
        · exact ih.2 j hj'
    · rw [if_neg hlt]
      have ih := minIdxByKey_spec k recs rest best
      constructor
      · rcases List.mem_cons.mp ih.1 with hm | hm
        · rw [hm]
          exact List.mem_cons_self _ _
        · exact List.mem_cons_of_mem _ (List.mem_cons_of_mem _ hm)
      · intro j hj
        rcases List.mem_cons.mp hj with rfl | hj'
        · exact ih.2 j (List.mem_cons_self j rest)
        · rcases List.mem_cons.mp hj' with rfl | hj''
          · intro hc
            exact ih.2 best (List.mem_cons_self best rest)
              (keyLt_of_not_lt_of_lt hlt hc)
          · exact ih.2 j (List.mem_cons_of_mem _ hj'')

theorem getP_eq_getElem {ps : List Process} {i : Nat} (h : i < ps.length) :
    getP ps i = ps[i] := by
  simp [getP, List.getD_eq_getElem?_getD, List.getElem?_eq_getElem h]

theorem getP_mem {ps : List Process} {i : Nat} (h : i < ps.length) :
    getP ps i ∈ ps := by
  rw [getP_eq_getElem h]
  exact List.getElem_mem h

theorem mem_readyIdx {recs : List Process} {time : Int} {j : Nat}
    (h : j ∈ readyIdx recs time) :
    j < recs.length ∧ (getP recs j).completion_time = none ∧
      (getP recs j).arrival_time ≤ time := by
  unfold readyIdx at h
  rw [List.mem_filter] at h
  obtain ⟨h1, h2⟩ := h
  rw [List.mem_range] at h1
  simp only [Bool.and_eq_true, decide_eq_true_eq, Option.isNone_iff_eq_none] at h2
  exact ⟨h1, h2.1, h2.2⟩

theorem map_pid_set (recs : List Process) (j : Nat) (p' : Process)
    (h : p'.pid = (getP recs j).pid) :
    (recs.set j p').map (fun p => p.pid) = recs.map (fun p => p.pid) := by
  apply List.ext_getElem?
  intro i
  simp only [List.getElem?_map, List.getElem?_set]
  by_cases h1 : j = i
  · subst h1
    by_cases h2 : j < recs.length
    · rw [if_pos rfl, if_pos h2, List.getElem?_eq_getElem h2]
      simp [h, getP_eq_getElem h2]
    · rw [if_pos rfl, if_neg h2, List.getElem?_eq_none (Nat.le_of_not_lt h2)]
  · rw [if_neg h1]

theorem pidBlocks_append (tl : List GanttBlock) (b : GanttBlock) (x : String) :
    pidBlocks (tl ++ [b]) x =
      pidBlocks tl x ++ if b.2.2 = x then [b] else [] := by
  simp only [pidBlocks, List.filter_append, List.filter_cons, List.filter_nil]
  by_cases h : b.2.2 = x <;> simp [h]

theorem pid_ne_of_nodup {recs : List Process}
    (hnd : (recs.map (fun p => p.pid)).Nodup) {i j : Nat}
    (hi : i < recs.length) (hj : j < recs.length) (hij : i ≠ j) :
    (getP recs i).pid ≠ (getP recs j).pid := by
  intro he
  rw [getP_eq_getElem hi, getP_eq_getElem hj] at he
  have hi' : i < (recs.map (fun p => p.pid)).length := by simpa using hi
  have hj' : j < (recs.map (fun p => p.pid)).length := by simpa using hj
  have : (recs.map (fun p => p.pid))[i] = (recs.map (fun p => p.pid))[j] := by
    simpa using he
  exact hij ((List.Nodup.getElem_inj_iff hnd).mp this)

theorem selectLoop_singleRun {k : Process → Int × Int × String} :
    ∀ (fuel : Nat) (recs : List Process) (time : Int) (completed : Nat)
      (tl : List GanttBlock) {r : List Process × List GanttBlock},
      selectLoop k fuel recs time completed tl = some r →
      (recs.map (fun p => p.pid)).Nodup →
      (∀ p ∈ recs, p.pid ≠ "Idle") →
      SingleRun recs tl →
      SingleRun r.1 r.2
  | 0, recs, time, completed, tl, r, h => by simp [selectLoop] at h
  | Nat.succ fuel, recs, time, completed, tl, r, h => by
    intro hnd hidle hinv
    rw [selectLoop] at h
    split at h
    · dsimp only at h
      split at h
      · -- ready list empty: idle jump or exit
        split at h
        · cases h
          exact hinv
        · refine selectLoop_singleRun fuel _ _ _ _ h hnd hidle ?_
          intro i hi
          have hne : "Idle" ≠ (getP recs i).pid :=
            fun he => hidle _ (getP_mem hi) he.symm
          obtain ⟨h0, h1⟩ := hinv i hi
          constructor
          · intro hc
            rw [pidBlocks_append, if_neg hne, h0 hc]
            rfl
          · intro hc
            obtain ⟨s, hs, hb⟩ := h1 hc
            exact ⟨s, hs, by rw [pidBlocks_append, if_neg hne, hb]; rfl⟩
      · -- non-empty ready list: dispatch the key-minimal ready process
        rename_i i0 is0 hr
        have hjready : minIdxByKey k recs i0 is0 ∈ readyIdx recs time := by
          rw [hr]
          exact (minIdxByKey_spec k recs is0 i0).1
        obtain ⟨hjlen, hjcomp, hjarr⟩ := mem_readyIdx hjready
        set j := minIdxByKey k recs i0 is0 with hj
        refine selectLoop_singleRun fuel _ _ _ _ h ?_ ?_ ?_
        · have hmp := map_pid_set recs j
            { getP recs j with start_time := some time,
                               completion_time := some (time + (getP recs j).burst_time) } rfl
          rw [hmp]
          exact hnd
        · intro p hp
          rcases List.mem_or_eq_of_mem_set hp with hp | rfl
          · exact hidle p hp
          · exact fun he => hidle (getP recs j) (getP_mem hjlen) he
        · intro i hi
          rw [List.length_set] at hi
          rw [getP_set]
          by_cases hij : j = i ∧ j < recs.length
          · obtain ⟨rfl, _⟩ := hij
            rw [if_pos ⟨rfl, hjlen⟩]
            refine ⟨fun hc => absurd hc (by simp), fun _ => ⟨time, rfl, ?_⟩⟩
            have h0 := (hinv j hi).1 hjcomp
            rw [pidBlocks_append, if_pos rfl]
            simp only [h0]
            rfl
          · have hji : ¬ (j = i) := fun he => hij ⟨he, he ▸ hi⟩
            rw [if_neg hij]
            have hpne : (getP recs j).pid ≠ (getP recs i).pid :=
              pid_ne_of_nodup hnd hjlen hi hji
            obtain ⟨h0, h1⟩ := hinv i hi
            constructor
            · intro hc
              rw [pidBlocks_append, if_neg hpne, h0 hc]
              rfl
            · intro hc
              obtain ⟨s, hs, hb⟩ := h1 hc
              exact ⟨s, hs, by rw [pidBlocks_append, if_neg hpne, hb]; rfl⟩
    · cases h
      exact hinv

theorem compute_metrics_fst (rs : List Process) :
    (compute_metrics rs).1 = rs.map metricsUpdateP := by
  simp [compute_metrics, metricsLoop_spec]

theorem metricsUpdateP_fields (p : Process) :
    (metricsUpdateP p).pid = p.pid ∧ (metricsUpdateP p).arrival_time = p.arrival_time ∧
      (metricsUpdateP p).burst_time = p.burst_time ∧
      (metricsUpdateP p).start_time = p.start_time ∧
      (metricsUpdateP p).completion_time = p.completion_time := by
  cases hc : p.completion_time <;> simp [metricsUpdateP, hc]

theorem getP_map (f : Process → Process) {rs : List Process} {i : Nat}
    (h : i < rs.length) : getP (rs.map f) i = f (getP rs i) := by
  have h' : i < (rs.map f).length := by simpa using h
  rw [getP_eq_getElem h', getP_eq_getElem h]
  simp

theorem reset_pid_map (ps : List Process) :
    (reset_processes ps).map (fun p => p.pid) = ps.map (fun p => p.pid) := by
  induction ps with
  | nil => rfl
  | cons p t ih => simpa [reset_processes, resetP] using ih

theorem reset_idle_free {ps : List Process} (h : ∀ p ∈ ps, p.pid ≠ "Idle") :
    ∀ p ∈ reset_processes ps, p.pid ≠ "Idle" := by
  intro p hp
  obtain ⟨q, hq, rfl⟩ := List.mem_map.mp hp
  exact h q hq

theorem reset_singleRun (ps : List Process) :
    SingleRun (reset_processes ps) [] := by
  intro i hi
  rw [show reset_processes ps = ps.map resetP from rfl] at hi ⊢
  rw [List.length_map] at hi
  rw [getP_map resetP hi]
  exact ⟨fun _ => rfl, fun hc => absurd rfl hc⟩

/-- **C5.** For every record list, at every decision point of
`sjf_non_preemptive` where the ready set is non-empty, the dispatched
process is a ready process minimizing the key `(burst_time, arrival_time,
pid)` — no ready process has a strictly smaller key — and, for well-formed
inputs, every process that has been dispatched runs to completion without
interruption: its pid labels exactly one timeline block, a single interval
of length `burst_time` starting at its `start_time`. -/
theorem sjf_dispatches_min_key_and_runs_to_completion :
    (∀ (recs : List Process) (time : Int) (i : Nat) (l : List Nat),
        readyIdx recs time = i :: l →
        minIdxByKey sjfKey recs i l ∈ readyIdx recs time ∧
          ∀ j ∈ readyIdx recs time,
            ¬ keyLt (sjfKey (getP recs j))
              (sjfKey (getP recs (minIdxByKey sjfKey recs i l)))) ∧
      (∀ (ps : List Process) (r : List Process × List GanttBlock),
        WF ps → sjf_non_preemptive ps = some r →
        ∀ i, i < r.1.length → (getP r.1 i).completion_time ≠ none →
          ∃ s, (getP r.1 i).start_time = some s ∧
            pidBlocks r.2 (getP r.1 i).pid =
              [(s, s + (getP r.1 i).burst_time, (getP r.1 i).pid)]) := by
  constructor
  · intro recs time i l hr
    rw [hr]
    exact minIdxByKey_spec sjfKey recs l i
  · intro ps r hwf h i hi hc
    unfold sjf_non_preemptive at h
    dsimp only at h
    cases hsel : selectLoop sjfKey (2 * ps.length + 1) (reset_processes ps)
        (if (reset_processes ps).isEmpty then 0
         else listMinD ((reset_processes ps).map (fun p => p.arrival_time))) 0 [] with
    | none => rw [hsel] at h; cases h
    | some r0 =>
      rw [hsel] at h
      cases h
      have hS : SingleRun r0.1 r0.2 :=
        selectLoop_singleRun _ _ _ _ _ hsel
          (by rw [reset_pid_map]; exact hwf.2)
          (reset_idle_free (fun p hp => (hwf.1 p hp).2.2))
          (reset_singleRun ps)
      rw [compute_metrics_fst] at hi hc ⊢
      rw [List.length_map] at hi
      rw [getP_map metricsUpdateP hi] at hc ⊢
      obtain ⟨hpid, _, hburst, hstart, hcomp⟩ := metricsUpdateP_fields (getP r0.1 i)
      rw [hcomp] at hc
      rw [hpid, hburst, hstart]
      exact (hS i hi).2 hc

/-- Witness for C5: on the worked example, the first SJF decision point
(clock 0, ready set `{P1}`) dispatches the key-minimal ready process, and
`P1` in the final result is a single uninterrupted interval. -/
theorem sjf_dispatches_min_key_witness :
    minIdxByKey sjfKey (reset_processes exC) 0 [] ∈ readyIdx (reset_processes exC) 0 ∧
      ∃ s, (getP exSjfR.1 0).start_time = some s ∧
        pidBlocks exSjfR.2 (getP exSjfR.1 0).pid =
          [(s, s + (getP exSjfR.1 0).burst_time, (getP exSjfR.1 0).pid)] :=
  ⟨(sjf_dispatches_min_key_and_runs_to_completion.1 (reset_processes exC) 0 0 []
      (by decide)).1,
   sjf_dispatches_min_key_and_runs_to_completion.2 exC exSjfR (by decide) (by decide)
      0 (by decide) (by decide)⟩

theorem foldl_min_le : ∀ (t : List Int) (a : Int),
    t.foldl min a ≤ a ∧ ∀ y ∈ t, t.foldl min a ≤ y
  | [], a => ⟨le_refl a, fun y hy => absurd hy (List.not_mem_nil y)⟩
  | b :: t, a => by
    have ih := foldl_min_le t (min a b)
    refine ⟨ih.1.trans (min_le_left a b), fun y hy => ?_⟩
    rcases List.mem_cons.mp hy with rfl | hy'
    · exact ih.1.trans (min_le_right a y)
    · exact ih.2 y hy'

theorem foldl_min_mem : ∀ (t : List Int) (a : Int),
    t.foldl min a = a ∨ t.foldl min a ∈ t
  | [], a => Or.inl rfl
  | b :: t, a => by
    rcases foldl_min_mem t (min a b) with h | h
    · rcases min_choice a b with hm | hm
      · exact Or.inl (by rw [show (b :: t).foldl min a = t.foldl min (min a b) from rfl, h, hm])
      · rw [show (b :: t).foldl min a = t.foldl min (min a b) from rfl, h, hm]
        exact Or.inr (List.mem_cons_self b t)
    · exact Or.inr (List.mem_cons_of_mem b h)

theorem listMinD_eq_of {l : List Int} {x : Int} (hm : x ∈ l)
    (hb : ∀ y ∈ l, x ≤ y) : listMinD l = x := by
  cases l with
  | nil => exact absurd hm (List.not_mem_nil x)
  | cons a t =>
    have h1 := foldl_min_le t a
    have h2 := foldl_min_mem t a
    refine le_antisymm ?_ ?_
    · rcases List.mem_cons.mp hm with rfl | hm'
      · exact h1.1
      · exact h1.2 x hm'
    · rcases h2 with h | h
      · rw [show listMinD (a :: t) = t.foldl min a from rfl, h]
        exact hb a (List.mem_cons_self a t)
      · exact hb _ (List.mem_cons_of_mem a h)

theorem foldl_max_le : ∀ (t : List Int) (a : Int),
    a ≤ t.foldl max a ∧ ∀ y ∈ t, y ≤ t.foldl max a
  | [], a => ⟨le_refl a, fun y hy => absurd hy (List.not_mem_nil y)⟩
  | b :: t, a => by
    have ih := foldl_max_le t (max a b)
    refine ⟨(le_max_left a b).trans ih.1, fun y hy => ?_⟩
    rcases List.mem_cons.mp hy with rfl | hy'
    · exact (le_max_right a y).trans ih.1
    · exact ih.2 y hy'

theorem foldl_max_mem : ∀ (t : List Int) (a : Int),
    t.foldl max a = a ∨ t.foldl max a ∈ t
  | [], a => Or.inl rfl
  | b :: t, a => by
    rcases foldl_max_mem t (max a b) with h | h
    · rcases max_choice a b with hm | hm
      · exact Or.inl (by rw [show (b :: t).foldl max a = t.foldl max (max a b) from rfl, h, hm])
      · rw [show (b :: t).foldl max a = t.foldl max (max a b) from rfl, h, hm]
        exact Or.inr (List.mem_cons_self b t)
    · exact Or.inr (List.mem_cons_of_mem b h)

theorem listMaxD_eq_of {l : List Int} {x : Int} (hm : x ∈ l)
    (hb : ∀ y ∈ l, y ≤ x) : listMaxD l = x := by
  cases l with
  | nil => exact absurd hm (List.not_mem_nil x)
  | cons a t =>
    have h1 := foldl_max_le t a
    have h2 := foldl_max_mem t a
    refine le_antisymm ?_ ?_
    · rcases h2 with h | h
      · rw [show listMaxD (a :: t) = t.foldl max a from rfl, h]
        exact hb a (List.mem_cons_self a t)
      · exact hb _ (List.mem_cons_of_mem a h)
    · rcases List.mem_cons.mp hm with rfl | hm'
      · exact h1.1
      · exact h1.2 x hm'

theorem chained_append_single : ∀ (tl : List GanttBlock) (b : GanttBlock),
    Chained tl → (tl = [] ∨ lastEnd tl = b.1) → Chained (tl ++ [b])
  | [], b, _, _ => trivial
  | [a], b, _, hl => by
    rcases hl with hl | hl
    · cases hl
    · exact ⟨hl, trivial⟩
  | a :: a' :: t, b, h, hl => by
    rcases hl with hl | hl
    · cases hl
    · exact ⟨h.1, chained_append_single (a' :: t) b h.2 (Or.inr hl)⟩

theorem lastEnd_append_single : ∀ (tl : List GanttBlock) (b : GanttBlock),
    lastEnd (tl ++ [b]) = b.2.1
  | [], _ => rfl
  | [_], _ => rfl
  | _ :: a' :: t, b => lastEnd_append_single (a' :: t) b

theorem headD_append_single {tl : List GanttBlock} (b d : GanttBlock)
    (h : tl ≠ []) : (tl ++ [b]).headD d = tl.headD d := by
  cases tl with
  | nil => exact absurd rfl h
  | cons a t => rfl

theorem chained_head_le : ∀ (tl : List GanttBlock), Chained tl →
    (∀ b ∈ tl, b.1 ≤ b.2.1) → ∀ b ∈ tl, (tl.headD default).1 ≤ b.1
  | [], _, _, b, hb => absurd hb (List.not_mem_nil b)
  | [a], _, _, b, hb => by
    rw [List.mem_singleton.mp hb]
    exact le_refl _
  | a :: a' :: t, h, hpos, b, hb => by
    rcases List.mem_cons.mp hb with rfl | hb'
    · exact le_refl _
    · have ih := chained_head_le (a' :: t) h.2
        (fun x hx => hpos x (List.mem_cons_of_mem a hx)) b hb'
      exact le_trans (le_trans (hpos a (List.mem_cons_self a _)) (le_of_eq h.1)) ih

theorem recordInv_metricsUpdate {p : Process} (h : CoreInv p) :
    RecordInv (metricsUpdateP p) := by
  obtain ⟨s, c, hs, hc, h1, h2, h3⟩ := h
  unfold metricsUpdateP
  rw [hc]
  exact ⟨s, c, c - p.arrival_time, c - p.arrival_time - p.burst_time,
    hs, rfl, rfl, rfl, h1, h2, rfl, rfl, by omega⟩

theorem recordedStarts_metricsUpdate (rs : List Process) :
    recordedStarts (rs.map metricsUpdateP) = recordedStarts rs := by
  unfold recordedStarts
  rw [List.filterMap_map]
  congr 1
  funext p
  simp only [Function.comp_apply]
  exact (metricsUpdateP_fields p).2.2.2.1

theorem recordedCompletions_metricsUpdate (rs : List Process) :
    recordedCompletions (rs.map metricsUpdateP) = recordedCompletions rs := by
  unfold recordedCompletions
  rw [List.filterMap_map]
  congr 1
  funext p
  simp only [Function.comp_apply]
  exact (metricsUpdateP_fields p).2.2.2.2

theorem mem_recordedStarts {rs : List Process} {x : Int} :
    x ∈ recordedStarts rs ↔
      ∃ i, i < rs.length ∧ (getP rs i).start_time = some x := by
  unfold recordedStarts
  rw [List.mem_filterMap]
  constructor
  · rintro ⟨p, hp, hpx⟩
    obtain ⟨i, hi, rfl⟩ := List.mem_iff_getElem.mp hp
    exact ⟨i, hi, by rw [getP_eq_getElem hi]; exact hpx⟩
  · rintro ⟨i, hi, hx⟩
    exact ⟨getP rs i, getP_mem hi, hx⟩

theorem mem_recordedCompletions {rs : List Process} {x : Int} :
    x ∈ recordedCompletions rs ↔
      ∃ i, i < rs.length ∧ (getP rs i).completion_time = some x := by
  unfold recordedCompletions
  rw [List.mem_filterMap]
  constructor
  · rintro ⟨p, hp, hpx⟩
    obtain ⟨i, hi, rfl⟩ := List.mem_iff_getElem.mp hp
    exact ⟨i, hi, by rw [getP_eq_getElem hi]; exact hpx⟩
  · rintro ⟨i, hi, hx⟩
    exact ⟨getP rs i, getP_mem hi, hx⟩

theorem mem_idleStarts {tl : List GanttBlock} {x : Int} :
    x ∈ idleStarts tl ↔ ∃ b ∈ tl, b.2.2 = "Idle" ∧ b.1 = x := by
  unfold idleStarts
  rw [List.mem_map]
  constructor
  · rintro ⟨b, hb, rfl⟩
    rw [List.mem_filter] at hb
    exact ⟨b, hb.1, by simpa using hb.2, rfl⟩
  · rintro ⟨b, hb, hbi, rfl⟩
    exact ⟨b, List.mem_filter.mpr ⟨hb, by simpa using hbi⟩, rfl⟩

theorem idleStarts_append (tl l : List GanttBlock) :
    idleStarts (tl ++ l) = idleStarts tl ++ idleStarts l := by
  simp [idleStarts, List.filter_append]

theorem midOK_idle {t0 : Int} {recs : List Process} {time next : Int}
    {tl : List GanttBlock} (hmid : MidOK t0 recs time tl) (hlt : time < next)
    (hw : ∃ i, i < recs.length ∧ (getP recs i).completion_time = none ∧
      (getP recs i).arrival_time ≤ next) :
    MidOK t0 recs next (tl ++ [((time, next, "Idle") : GanttBlock)]) := by
  obtain ⟨ht0, hcomp, hstart, hch, hpos, hlast, hhead, _⟩ := hmid
  refine ⟨ht0.trans hlt.le,
    fun i hi c hc => (hcomp i hi c hc).trans hlt.le,
    fun i hi st hs => ⟨(hstart i hi st hs).1, (hstart i hi st hs).2.trans hlt.le⟩,
    ?_, ?_, ?_, ?_, fun _ => Or.inr hw⟩
  · refine chained_append_single tl _ hch ?_
    rcases hlast with ⟨h1, _⟩ | ⟨_, h2⟩
    · exact Or.inl h1
    · exact Or.inr h2
  · intro b hb
    rcases List.mem_append.mp hb with hb | hb
    · exact hpos b hb
    · rw [List.mem_singleton.mp hb]
      exact hlt
  · exact Or.inr ⟨by simp, lastEnd_append_single tl _⟩
  · intro _
    rcases hlast with ⟨rfl, h2⟩ | ⟨h1, _⟩
    · subst h2
      refine ⟨by simp, Or.inr ?_⟩
      exact mem_idleStarts.mpr ⟨(time, next, "Idle"), by simp, rfl, rfl⟩
    · obtain ⟨hh, hm⟩ := hhead h1
      refine ⟨by rw [headD_append_single _ _ h1]; exact hh, ?_⟩
      rcases hm with hm | hm
      · exact Or.inl hm
      · refine Or.inr ?_
        rw [idleStarts_append]
        exact List.mem_append.mpr (Or.inl hm)

theorem midOK_dispatch {t0 : Int} {recs : List Process} {time : Int}
    {tl : List GanttBlock} (j : Nat) (hj : j < recs.length)
    (hb : 0 < (getP recs j).burst_time)
    (ha : (getP recs j).arrival_time ≤ time)
    (hs0 : (getP recs j).start_time = none)
    (hmid : MidOK t0 recs time tl) :
    MidOK t0
        (recs.set j { getP recs j with
                      start_time := some time,
                      completion_time := some (time + (getP recs j).burst_time) })
        (time + (getP recs j).burst_time)
        (tl ++ [((time, time + (getP recs j).burst_time, (getP recs j).pid) : GanttBlock)]) ∧
      CoreInv (getP (recs.set j { getP recs j with
                                  start_time := some time,
                                  completion_time := some (time + (getP recs j).burst_time) }) j) := by
  obtain ⟨ht0, hcomp, hstart, hch, hpos, hlast, hhead, _⟩ := hmid
  have hble : time ≤ time + (getP recs j).burst_time := by omega
  have hgj : getP (recs.set j { getP recs j with
                                start_time := some time,
                                completion_time := some (time + (getP recs j).burst_time) }) j =
      { getP recs j with
        start_time := some time,
        completion_time := some (time + (getP recs j).burst_time) } := by
    rw [getP_set, if_pos ⟨rfl, hj⟩]
  constructor
  · refine ⟨ht0.trans hble, ?_, ?_, ?_, ?_, ?_, ?_, ?_⟩
    · intro i hi c hc
      rw [List.length_set] at hi
      rw [getP_set] at hc
      by_cases hc' : j = i ∧ j < recs.length
      · rw [if_pos hc'] at hc
        cases hc
        exact le_refl _
      · rw [if_neg hc'] at hc
        exact (hcomp i hi c hc).trans hble
    · intro i hi st hs
      rw [List.length_set] at hi
      rw [getP_set] at hs
      by_cases hc' : j = i ∧ j < recs.length
      · rw [if_pos hc'] at hs
        cases hs
        exact ⟨ht0, hble⟩
      · rw [if_neg hc'] at hs
        exact ⟨(hstart i hi st hs).1, (hstart i hi st hs).2.trans hble⟩
    · refine chained_append_single tl _ hch ?_
      rcases hlast with ⟨h1, _⟩ | ⟨_, h2⟩
      · exact Or.inl h1
      · exact Or.inr h2
    · intro b hbm
      rcases List.mem_append.mp hbm with hbm | hbm
      · exact hpos b hbm
      · rw [List.mem_singleton.mp hbm]
        simpa using hb
    · exact Or.inr ⟨by simp, lastEnd_append_single tl _⟩
    · intro _
      rcases hlast with ⟨rfl, h2⟩ | ⟨h1, _⟩
      · subst h2
        refine ⟨by simp, Or.inl ?_⟩
        refine mem_recordedStarts.mpr ⟨j, by simpa using hj, ?_⟩
        rw [hgj]
      · obtain ⟨hh, hm⟩ := hhead h1
        refine ⟨by rw [headD_append_single _ _ h1]; exact hh, ?_⟩
        rcases hm with hm | hm
        · obtain ⟨i0, hi0, hsi0⟩ := mem_recordedStarts.mp hm
          have hij : ¬ (j = i0) := by
            rintro rfl
            rw [hs0] at hsi0
            cases hsi0
          refine Or.inl (mem_recordedStarts.mpr ⟨i0, by simpa using hi0, ?_⟩)
          rw [getP_set, if_neg (fun hcc => hij hcc.1)]
          exact hsi0
        · refine Or.inr ?_
          rw [idleStarts_append]
          exact List.mem_append.mpr (Or.inl hm)
    · intro _
      refine Or.inl ⟨j, by simpa using hj, ?_⟩
      rw [hgj]
  · rw [hgj]
    refine ⟨time, time + (getP recs j).burst_time, rfl, rfl, ha, hble, ?_⟩
    show (getP recs j).arrival_time + (getP recs j).burst_time ≤
      time + (getP recs j).burst_time
    omega

theorem midOK_finalOK {t0 : Int} {recs : List Process} {time : Int}
    {tl : List GanttBlock} (hmid : MidOK t0 recs time tl)
    (hall : ∀ i, i < recs.length → CoreInv (getP recs i)) :
    FinalOK t0 recs tl := by
  obtain ⟨ht0, hcomp, hstart, hch, hpos, hlast, hhead, hfin⟩ := hmid
  refine ⟨hall, hch, hpos, fun hne => ?_⟩
  obtain ⟨hh, hm⟩ := hhead hne
  have hlast' : lastEnd tl = time :=
    (hlast.resolve_left (fun hc => hne hc.1)).2
  refine ⟨hh, ?_, ?_, ?_, ?_⟩
  · rcases hm with hm | hm
    · exact List.mem_append.mpr (Or.inl hm)
    · exact List.mem_append.mpr (Or.inr hm)
  · intro x hx
    rcases List.mem_append.mp hx with hx | hx
    · obtain ⟨i, hi, hsx⟩ := mem_recordedStarts.mp hx
      exact (hstart i hi x hsx).1
    · obtain ⟨b, hbm, _, rfl⟩ := mem_idleStarts.mp hx
      have hhb := chained_head_le tl hch (fun b hb => le_of_lt (hpos b hb)) b hbm
      rw [hh] at hhb
      exact hhb
  · rcases hfin hne with ⟨i, hi, hc⟩ | ⟨i, hi, hc, _⟩
    · rw [hlast']
      exact mem_recordedCompletions.mpr ⟨i, hi, hc⟩
    · obtain ⟨s, c, _, hcs, _⟩ := hall i hi
      rw [hc] at hcs
      cases hcs
  · intro x hx
    obtain ⟨i, hi, hcx⟩ := mem_recordedCompletions.mp hx
    rw [hlast']
    exact hcomp i hi x hcx

theorem finalOK_claims {t0 : Int} {recs : List Process} {tl : List GanttBlock}
    (h : FinalOK t0 recs tl) :
    (∀ i, i < (recs.map metricsUpdateP).length →
      RecordInv (getP (recs.map metricsUpdateP) i)) ∧
      TimelineOK (recs.map metricsUpdateP) tl := by
  obtain ⟨hcore, hch, hpos, hcov⟩ := h
  constructor
  · intro i hi
    rw [List.length_map] at hi
    rw [getP_map metricsUpdateP hi]
    exact recordInv_metricsUpdate (hcore i hi)
  · refine ⟨hch, hpos, fun hne => ?_⟩
    obtain ⟨hh, hmem, hlb, hle, hub⟩ := hcov hne
    rw [recordedStarts_metricsUpdate, recordedCompletions_metricsUpdate]
    exact ⟨hh.trans (listMinD_eq_of hmem hlb).symm, (listMaxD_eq_of hle hub).symm⟩

theorem insertSorted_perm (le : α → α → Bool) (x : α) :
    ∀ l : List α, (insertSorted le x l).Perm (x :: l)
  | [] => List.Perm.refl _
  | y :: ys => by
    rw [insertSorted]
    split
    · exact ((insertSorted_perm le x ys).cons y).trans (List.Perm.swap x y ys)
    · exact List.Perm.refl _

theorem sortBy_perm_aux (le : α → α → Bool) :
    ∀ (l acc : List α),
      (l.foldl (fun acc x => insertSorted le x acc) acc).Perm (l ++ acc)
  | [], acc => by simp
  | x :: t, acc => by
    rw [List.foldl_cons]
    refine (sortBy_perm_aux le t (insertSorted le x acc)).trans ?_
    refine (List.Perm.append_left t (insertSorted_perm le x acc)).trans ?_
    exact List.perm_middle

theorem sortBy_perm (le : α → α → Bool) (l : List α) : (sortBy le l).Perm l := by
  simpa using sortBy_perm_aux le l []

theorem fcfsLoop_ok (t0 : Int) :
    ∀ (order : List Nat) (recs : List Process) (time : Int) (tl : List GanttBlock),
      order.Nodup →
      (∀ j ∈ order, j < recs.length ∧ 0 < (getP recs j).burst_time ∧
        (getP recs j).start_time = none ∧ (getP recs j).completion_time = none) →
      (∀ i, i < recs.length → i ∉ order → CoreInv (getP recs i)) →
      MidOK t0 recs time tl →
      MidOK t0 (fcfsLoop recs order time tl).1 (fcfsLoop recs order time tl).2.1
          (fcfsLoop recs order time tl).2.2 ∧
        ∀ i, i < (fcfsLoop recs order time tl).1.length →
          CoreInv (getP (fcfsLoop recs order time tl).1 i)
  | [], recs, time, tl, _, _, hpre, hmid =>
    ⟨hmid, fun i hi => hpre i hi (List.not_mem_nil i)⟩
  | j :: rest, recs, time, tl, hnd, hord, hpre, hmid => by
    obtain ⟨hjl, hjb, hjs, hjc⟩ := hord j (List.mem_cons_self j rest)
    have hjmem : j ∉ rest := (List.nodup_cons.mp hnd).1
    have hnd' : rest.Nodup := (List.nodup_cons.mp hnd).2
    rw [fcfsLoop]
    by_cases hidle : time < (getP recs j).arrival_time
    · simp only [if_pos hidle]
      have hmid1 := midOK_idle hmid hidle ⟨j, hjl, hjc, le_refl _⟩
      have hstep := midOK_dispatch j hjl hjb (le_refl _) hjs hmid1
      refine fcfsLoop_ok t0 rest _ _ _ hnd' ?_ ?_ hstep.1
      · intro j' hj'
        have hne : ¬ (j = j') := fun he => hjmem (he ▸ hj')
        rw [List.length_set, getP_set, if_neg (fun hc => hne hc.1)]
        exact hord j' (List.mem_cons_of_mem j hj')
      · intro i hi hir
        rw [List.length_set] at hi
        by_cases hij : j = i
        · subst hij
          exact hstep.2
        · rw [getP_set, if_neg (fun hc => hij hc.1)]
          exact hpre i hi (fun hm => by
            rcases List.mem_cons.mp hm with rfl | hm'
            · exact hij rfl
            · exact hir hm')
    · simp only [if_neg hidle]
      have hstep := midOK_dispatch j hjl hjb (not_lt.mp hidle) hjs hmid
      refine fcfsLoop_ok t0 rest _ _ _ hnd' ?_ ?_ hstep.1
      · intro j' hj'
        have hne : ¬ (j = j') := fun he => hjmem (he ▸ hj')
        rw [List.length_set, getP_set, if_neg (fun hc => hne hc.1)]
        exact hord j' (List.mem_cons_of_mem j hj')
      · intro i hi hir
        rw [List.length_set] at hi
        by_cases hij : j = i
        · subst hij
          exact hstep.2
        · rw [getP_set, if_neg (fun hc => hij hc.1)]
          exact hpre i hi (fun hm => by
            rcases List.mem_cons.mp hm with rfl | hm'
            · exact hij rfl
            · exact hir hm')

theorem fcfs_claims {ps : List Process} (hwf : WF ps) :
    (∀ i, i < (fcfs ps).1.length → RecordInv (getP (fcfs ps).1 i)) ∧
      TimelineOK (fcfs ps).1 (fcfs ps).2 := by
  have hperm := sortBy_perm (fcfsLe (reset_processes ps)) (List.range ps.length)
  have hnd : (sortBy (fcfsLe (reset_processes ps)) (List.range ps.length)).Nodup :=
    hperm.nodup_iff.mpr (List.nodup_range ps.length)
  have hlen : (reset_processes ps).length = ps.length := List.length_map _ _
  have hord : ∀ j ∈ sortBy (fcfsLe (reset_processes ps)) (List.range ps.length),
      j < (reset_processes ps).length ∧
        0 < (getP (reset_processes ps) j).burst_time ∧
        (getP (reset_processes ps) j).start_time = none ∧
        (getP (reset_processes ps) j).completion_time = none := by
    intro j hj
    have hjr : j < ps.length := List.mem_range.mp (hperm.mem_iff.mp hj)
    have hg : getP (reset_processes ps) j = resetP (getP ps j) := getP_map resetP hjr
    rw [hlen, hg]
    exact ⟨hjr, (hwf.1 (getP ps j) (getP_mem hjr)).1, rfl, rfl⟩
  have hpre : ∀ i, i < (reset_processes ps).length →
      i ∉ sortBy (fcfsLe (reset_processes ps)) (List.range ps.length) →
      CoreInv (getP (reset_processes ps) i) := by
    intro i hi him
    rw [hlen] at hi
    exact absurd (hperm.mem_iff.mpr (List.mem_range.mpr hi)) him
  have hmid0 : MidOK 0 (reset_processes ps) 0 [] := by
    refine ⟨le_refl 0, ?_, ?_, trivial, ?_, Or.inl ⟨rfl, rfl⟩, ?_, ?_⟩
    · intro i hi c hc
      rw [hlen] at hi
      have hg : getP (reset_processes ps) i = resetP (getP ps i) := getP_map resetP hi
      rw [hg] at hc
      cases hc
    · intro i hi st hs
      rw [hlen] at hi
      have hg : getP (reset_processes ps) i = resetP (getP ps i) := getP_map resetP hi
      rw [hg] at hs
      cases hs
    · intro b hb
      exact absurd hb (List.not_mem_nil b)
    · intro h
      exact absurd rfl h
    · intro h
      exact absurd rfl h
  obtain ⟨hmidF, hallF⟩ := fcfsLoop_ok 0 _ _ _ _ hnd hord hpre hmid0
  have hcl := finalOK_claims (midOK_finalOK hmidF hallF)
  have hfst : (fcfs ps).1 =
      (fcfsLoop (reset_processes ps)
        (sortBy (fcfsLe (reset_processes ps)) (List.range ps.length)) 0 []).1.map
        metricsUpdateP := compute_metrics_fst _
  have hsnd : (fcfs ps).2 =
      (fcfsLoop (reset_processes ps)
        (sortBy (fcfsLe (reset_processes ps)) (List.range ps.length)) 0 []).2.2 := rfl
  rw [hfst, hsnd]
  exact hcl

theorem countP_isNone_set_completed :
    ∀ (l : List Process) (j : Nat) (a : Process), j < l.length →
      (getP l j).completion_time = none → a.completion_time.isNone = false →
      (l.set j a).countP (fun p => p.completion_time.isNone) + 1 =
        l.countP (fun p => p.completion_time.isNone)
  | [], j, a, hj, _, _ => absurd hj (by simp)
  | b :: t, 0, a, _, hb, ha => by
    have hb' : b.completion_time.isNone = true := by
      rw [show getP (b :: t) 0 = b from rfl] at hb
      rw [hb]
      rfl
    rw [List.set_cons_zero, List.countP_cons, List.countP_cons, hb', ha]
    simp
  | b :: t, Nat.succ j, a, hj, hb, ha => by
    have hj' : j < t.length := by simpa using hj
    have hb' : (getP t j).completion_time = none := by
      rw [show getP (b :: t) (j + 1) = getP t j from List.getD_cons_succ] at hb
      exact hb
    have ih := countP_isNone_set_completed t j a hj' hb' ha
    rw [List.set_cons_succ, List.countP_cons, List.countP_cons]
    omega

theorem listMinD_mem {l : List Int} (h : l ≠ []) : listMinD l ∈ l := by
  cases l with
  | nil => exact absurd rfl h
  | cons a t =>
    rcases foldl_min_mem t a with hm | hm
    · rw [show listMinD (a :: t) = t.foldl min a from rfl, hm]
      exact List.mem_cons_self a t
    · exact List.mem_cons_of_mem a hm

theorem readyIdx_empty {recs : List Process} {time : Int}
    (h : readyIdx recs time = []) :
    ∀ i, i < recs.length → (getP recs i).completion_time = none →
      time < (getP recs i).arrival_time := by
  intro i hi hc
  have hmem : i ∈ List.range recs.length := List.mem_range.mpr hi
  have := List.filter_eq_nil_iff.mp h i hmem
  simp only [Bool.and_eq_true, decide_eq_true_eq, Option.isNone_iff_eq_none,
    not_and, not_le] at this
  exact this hc

theorem next_arrival_witness {recs : List Process} {x : Int}
    (hx : x ∈ (recs.filter (fun p => p.completion_time.isNone)).map
      (fun p => p.arrival_time)) :
    ∃ i, i < recs.length ∧ (getP recs i).completion_time = none ∧
      (getP recs i).arrival_time = x := by
  obtain ⟨p, hp, rfl⟩ := List.mem_map.mp hx
  rw [List.mem_filter] at hp
  obtain ⟨i, hi, rfl⟩ := List.mem_iff_getElem.mp hp.1
  refine ⟨i, hi, ?_, ?_⟩
  · rw [getP_eq_getElem hi]
    exact Option.isNone_iff_eq_none.mp hp.2
  · rw [getP_eq_getElem hi]

theorem selectLoop_ok {k : Process → Int × Int × String} (t0 : Int) :
    ∀ (fuel : Nat) (recs : List Process) (time : Int) (completed : Nat)
      (tl : List GanttBlock) {r : List Process × List GanttBlock},
      selectLoop k fuel recs time completed tl = some r →
      (∀ p ∈ recs, 0 < p.burst_time) →
      recs.countP (fun p => p.completion_time.isNone) + completed = recs.length →
      (∀ i, i < recs.length → (getP recs i).completion_time = none →
        (getP recs i).start_time = none) →
      (∀ i, i < recs.length → (getP recs i).completion_time ≠ none →
        CoreInv (getP recs i)) →
      MidOK t0 recs time tl →
      FinalOK t0 r.1 r.2
  | 0, recs, time, completed, tl, r, h, _, _, _, _, _ => by simp [selectLoop] at h
  | Nat.succ fuel, recs, time, completed, tl, r, h, hb, hcount, hsn, hci, hmid => by
    rw [selectLoop] at h
    split at h
    · dsimp only at h
      split at h
      · split at h
        · -- no ready process and nothing left to arrive: Python's break
          rename_i hna
          cases h
          have hfe : recs.filter (fun p => p.completion_time.isNone) = [] :=
            List.map_eq_nil_iff.mp hna
          have hnone : ∀ p ∈ recs, ¬ p.completion_time.isNone = true :=
            List.filter_eq_nil_iff.mp hfe
          refine midOK_finalOK hmid ?_
          intro i hi
          refine hci i hi (fun hc => hnone (getP recs i) (getP_mem hi) ?_)
          rw [hc]
          rfl
        · -- idle jump to the next arrival
          rename_i hready hna
          obtain ⟨i0, hi0, hc0, ha0⟩ := next_arrival_witness (listMinD_mem hna)
          have hlt : time < listMinD ((recs.filter
              (fun p => p.completion_time.isNone)).map (fun p => p.arrival_time)) := by
            rw [← ha0]
            exact readyIdx_empty hready i0 hi0 hc0
          exact selectLoop_ok t0 fuel _ _ _ _ h hb hcount hsn hci
            (midOK_idle hmid hlt ⟨i0, hi0, hc0, le_of_eq ha0⟩)
      · -- dispatch the selected ready process
        rename_i i0 is0 hr
        have hjready : minIdxByKey k recs i0 is0 ∈ readyIdx recs time := by
          rw [hr]
          exact (minIdxByKey_spec k recs is0 i0).1
        obtain ⟨hjl, hjc, hjarr⟩ := mem_readyIdx hjready
        set j := minIdxByKey k recs i0 is0 with hj
        have hstep := midOK_dispatch j hjl (hb _ (getP_mem hjl)) hjarr
          (hsn j hjl hjc) hmid
        refine selectLoop_ok t0 fuel _ _ _ _ h ?_ ?_ ?_ ?_ hstep.1
        · intro p hp
          rcases List.mem_or_eq_of_mem_set hp with hp | rfl
          · exact hb p hp
          · exact hb (getP recs j) (getP_mem hjl)
        · rw [List.length_set]
          suffices hsuf : (recs.set j
              { getP recs j with
                start_time := some time,
                completion_time := some (time + (getP recs j).burst_time)
              }).countP (fun p => p.completion_time.isNone) + (completed + 1) =
              recs.length by
            exact hsuf
          have hcp := countP_isNone_set_completed recs j
            { getP recs j with
              start_time := some time,
              completion_time := some (time + (getP recs j).burst_time) }
            hjl hjc rfl
          omega
        · intro i hi hc
          rw [List.length_set] at hi
          rw [getP_set] at hc ⊢
          by_cases hij : j = i ∧ j < recs.length
          · rw [if_pos hij] at hc
            cases hc
          · rw [if_neg hij] at hc
            rw [if_neg hij]
            exact hsn i hi hc
        · intro i hi hc
          rw [List.length_set] at hi
          by_cases hij : j = i
          · subst hij
            exact hstep.2
          · rw [getP_set, if_neg (fun hx => hij hx.1)] at hc ⊢
            exact hci i hi hc
    · cases h
      have hz : recs.countP (fun p => p.completion_time.isNone) = 0 := by omega
      have hnone := List.countP_eq_zero.mp hz
      refine midOK_finalOK hmid ?_
      intro i hi
      refine hci i hi (fun hc => hnone (getP recs i) (getP_mem hi) ?_)
      rw [hc]
      rfl

theorem selectAlg_claims {k : Process → Int × Int × String} {ps : List Process}
    {r : List Process × List GanttBlock} {t0 : Int} (hwf : WF ps)
    (hsel : selectLoop k (2 * ps.length + 1) (reset_processes ps) t0 0 [] = some r) :
    (∀ i, i < (r.1.map metricsUpdateP).length →
      RecordInv (getP (r.1.map metricsUpdateP) i)) ∧
      TimelineOK (r.1.map metricsUpdateP) r.2 := by
  have hlen : (reset_processes ps).length = ps.length := List.length_map _ _
  have hb : ∀ p ∈ reset_processes ps, 0 < p.burst_time := by
    intro p hp
    obtain ⟨q, hq, rfl⟩ := List.mem_map.mp hp
    exact (hwf.1 q hq).1
  have hcount : (reset_processes ps).countP (fun p => p.completion_time.isNone) + 0 =
      (reset_processes ps).length := by
    rw [Nat.add_zero]
    refine List.countP_eq_length.mpr ?_
    intro p hp
    obtain ⟨q, hq, rfl⟩ := List.mem_map.mp hp
    rfl
  have hsn : ∀ i, i < (reset_processes ps).length →
      (getP (reset_processes ps) i).completion_time = none →
      (getP (reset_processes ps) i).start_time = none := by
    intro i hi _
    rw [hlen] at hi
    have hg : getP (reset_processes ps) i = resetP (getP ps i) := getP_map resetP hi
    rw [hg]
    rfl
  have hci : ∀ i, i < (reset_processes ps).length →
      (getP (reset_processes ps) i).completion_time ≠ none →
      CoreInv (getP (reset_processes ps) i) := by
    intro i hi hc
    rw [hlen] at hi
    have hg : getP (reset_processes ps) i = resetP (getP ps i) := getP_map resetP hi
    rw [hg] at hc
    exact absurd rfl hc
  have hmid0 : MidOK t0 (reset_processes ps) t0 [] := by
    refine ⟨le_refl t0, ?_, ?_, trivial, ?_, Or.inl ⟨rfl, rfl⟩, ?_, ?_⟩
    · intro i hi c hc
      rw [hlen] at hi
      have hg : getP (reset_processes ps) i = resetP (getP ps i) := getP_map resetP hi
      rw [hg] at hc
      cases hc
    · intro i hi st hs
      rw [hlen] at hi
      have hg : getP (reset_processes ps) i = resetP (getP ps i) := getP_map resetP hi
      rw [hg] at hs
      cases hs
    · intro b hb'
      exact absurd hb' (List.not_mem_nil b)
    · intro hh
      exact absurd rfl hh
    · intro hh
      exact absurd rfl hh
  exact finalOK_claims (selectLoop_ok t0 _ _ _ _ _ hsel hb hcount hsn hci hmid0)

theorem sjf_claims {ps : List Process} {r : List Process × List GanttBlock}
    (hwf : WF ps) (h : sjf_non_preemptive ps = some r) :
    (∀ i, i < r.1.length → RecordInv (getP r.1 i)) ∧ TimelineOK r.1 r.2 := by
  unfold sjf_non_preemptive at h
  dsimp only at h
  cases hsel : selectLoop sjfKey (2 * ps.length + 1) (reset_processes ps)
      (if (reset_processes ps).isEmpty then 0
       else listMinD ((reset_processes ps).map (fun p => p.arrival_time))) 0 [] with
  | none => rw [hsel] at h; cases h
  | some r0 =>
    rw [hsel] at h
    cases h
    have hcl := selectAlg_claims hwf hsel
    rw [compute_metrics_fst]
    exact hcl

theorem priority_claims {ps : List Process} {r : List Process × List GanttBlock}
    (hwf : WF ps) (h : priority_non_preemptive ps = some r) :
    (∀ i, i < r.1.length → RecordInv (getP r.1 i)) ∧ TimelineOK r.1 r.2 := by
  unfold priority_non_preemptive at h
  dsimp only at h
  cases hsel : selectLoop prioKey (2 * ps.length + 1) (reset_processes ps)
      (if (reset_processes ps).isEmpty then 0
       else listMinD ((reset_processes ps).map (fun p => p.arrival_time))) 0 [] with
  | none => rw [hsel] at h; cases h
  | some r0 =>
    rw [hsel] at h
    cases h
    have hcl := selectAlg_claims hwf hsel
    rw [compute_metrics_fst]
    exact hcl

theorem midOK_set_same {t0 : Int} {recs : List Process} {time : Int}
    {tl : List GanttBlock} {j : Nat} {p' : Process}
    (hs : p'.start_time = (getP recs j).start_time)
    (hc : p'.completion_time = (getP recs j).completion_time)
    (ha : p'.arrival_time = (getP recs j).arrival_time)
    (hmid : MidOK t0 recs time tl) : MidOK t0 (recs.set j p') time tl := by
  obtain ⟨ht0, hcomp, hstart, hch, hpos, hlast, hhead, hfin⟩ := hmid
  refine ⟨ht0, ?_, ?_, hch, hpos, hlast, ?_, ?_⟩
  · intro i hi c hci
    rw [List.length_set] at hi
    rw [getP_set] at hci
    by_cases hij : j = i ∧ j < recs.length
    · rw [if_pos hij] at hci
      rw [hc] at hci
      exact hcomp i hi c (hij.1 ▸ hci)
    · rw [if_neg hij] at hci
      exact hcomp i hi c hci
  · intro i hi st hsi
    rw [List.length_set] at hi
    rw [getP_set] at hsi
    by_cases hij : j = i ∧ j < recs.length
    · rw [if_pos hij] at hsi
      rw [hs] at hsi
      exact hstart i hi st (hij.1 ▸ hsi)
    · rw [if_neg hij] at hsi
      exact hstart i hi st hsi
  · intro hne
    obtain ⟨hh, hm⟩ := hhead hne
    refine ⟨hh, ?_⟩
    rcases hm with hm | hm
    · obtain ⟨i0, hi0, hs0⟩ := mem_recordedStarts.mp hm
      refine Or.inl (mem_recordedStarts.mpr ⟨i0, by simpa using hi0, ?_⟩)
      rw [getP_set]
      by_cases hij : j = i0 ∧ j < recs.length
      · rw [if_pos hij, hs, hij.1]
        exact hs0
      · rw [if_neg hij]
        exact hs0
    · exact Or.inr hm
  · intro hne
    rcases hfin hne with ⟨i0, hi0, hc0⟩ | ⟨i0, hi0, hc0, ha0⟩
    · refine Or.inl ⟨i0, by simpa using hi0, ?_⟩
      rw [getP_set]
      by_cases hij : j = i0 ∧ j < recs.length
      · rw [if_pos hij, hc, hij.1]
        exact hc0
      · rw [if_neg hij]
        exact hc0
    · refine Or.inr ⟨i0, by simpa using hi0, ?_⟩
      rw [getP_set]
      by_cases hij : j = i0 ∧ j < recs.length
      · rw [if_pos hij]
        refine ⟨by rw [hc, hij.1]; exact hc0, ?_⟩
        rw [ha, hij.1]
        exact ha0
      · rw [if_neg hij]
        exact ⟨hc0, ha0⟩

theorem queueOK_mono {recs : List Process} {time time' : Int} {queue : List Nat}
    (h : QueueOK recs time queue) (hle : time ≤ time') :
    QueueOK recs time' queue := by
  intro j hj
  obtain ⟨h1, h2, h3, h4, rm, h5, h6, h7⟩ := h j hj
  exact ⟨h1, h2, h3.trans hle, h4, rm, h5, h6, h7.trans hle⟩

theorem midOK_slice {t0 : Int} {recs : List Process} {time : Int}
    {tl : List GanttBlock} (c : Nat) (hcl : c < recs.length) (run : Int)
    (hrun : 0 < run)
    (hccomp : (getP recs c).completion_time = none)
    (harr : (getP recs c).arrival_time ≤ time)
    {p'' : Process}
    (hst : (p''.start_time = some time ∧ (getP recs c).start_time = none) ∨
      p''.start_time = (getP recs c).start_time)
    (hcomp2 : p''.completion_time = (getP recs c).completion_time)
    (harr2 : p''.arrival_time = (getP recs c).arrival_time)
    (hcorner : tl = [] → p''.start_time = some time)
    (hmid : MidOK t0 recs time tl) :
    MidOK t0 (recs.set c p'') (time + run)
      (tl ++ [((time, time + run, (getP recs c).pid) : GanttBlock)]) := by
  obtain ⟨ht0, hcomp, hstart, hch, hpos, hlast, hhead, hfin⟩ := hmid
  have hle : time ≤ time + run := by omega
  refine ⟨ht0.trans hle, ?_, ?_, ?_, ?_, ?_, ?_, ?_⟩
  · intro i hi cc hci
    rw [List.length_set] at hi
    rw [getP_set] at hci
    by_cases hij : c = i ∧ c < recs.length
    · rw [if_pos hij, hcomp2, hccomp] at hci
      cases hci
    · rw [if_neg hij] at hci
      exact (hcomp i hi cc hci).trans hle
  · intro i hi st hsi
    rw [List.length_set] at hi
    rw [getP_set] at hsi
    by_cases hij : c = i ∧ c < recs.length
    · rw [if_pos hij] at hsi
      rcases hst with ⟨hst1, _⟩ | hst1
      · rw [hst1] at hsi
        cases hsi
        exact ⟨ht0, hle⟩
      · rw [hst1] at hsi
        obtain ⟨hx, hy⟩ := hstart i hi st (hij.1 ▸ hsi)
        exact ⟨hx, hy.trans hle⟩
    · rw [if_neg hij] at hsi
      obtain ⟨hx, hy⟩ := hstart i hi st hsi
      exact ⟨hx, hy.trans hle⟩
  · refine chained_append_single tl _ hch ?_
    rcases hlast with ⟨h1, _⟩ | ⟨_, h2⟩
    · exact Or.inl h1
    · exact Or.inr h2
  · intro b hbm
    rcases List.mem_append.mp hbm with hbm | hbm
    · exact hpos b hbm
    · rw [List.mem_singleton.mp hbm]
      simpa using hrun
  · exact Or.inr ⟨by simp, lastEnd_append_single tl _⟩
  · intro _
    rcases hlast with ⟨rfl, h2⟩ | ⟨h1, _⟩
    · subst h2
      refine ⟨by simp, Or.inl ?_⟩
      refine mem_recordedStarts.mpr ⟨c, by simpa using hcl, ?_⟩
      rw [getP_set, if_pos ⟨rfl, hcl⟩]
      exact hcorner rfl
    · obtain ⟨hh, hm⟩ := hhead h1
      refine ⟨by rw [headD_append_single _ _ h1]; exact hh, ?_⟩
      rcases hm with hm | hm
      · obtain ⟨i0, hi0, hs0⟩ := mem_recordedStarts.mp hm
        refine Or.inl (mem_recordedStarts.mpr ⟨i0, by simpa using hi0, ?_⟩)
        rw [getP_set]
        by_cases hij : c = i0 ∧ c < recs.length
        · rw [if_pos hij]
          rcases hst with ⟨_, hst2⟩ | hst2
          · rw [hij.1, hs0] at hst2
            cases hst2
          · rw [hst2, hij.1]
            exact hs0
        · rw [if_neg hij]
          exact hs0
      · refine Or.inr ?_
        rw [idleStarts_append]
        exact List.mem_append.mpr (Or.inl hm)
  · intro _
    refine Or.inr ⟨c, by simpa using hcl, ?_, ?_⟩
    · rw [getP_set, if_pos ⟨rfl, hcl⟩, hcomp2]
      exact hccomp
    · rw [getP_set, if_pos ⟨rfl, hcl⟩, harr2]
      exact harr.trans hle

theorem rrAdmit_inv {t0 : Int} :
    ∀ (pending : List Nat) (recs : List Process) (time : Int) (queue : List Nat)
      (tl : List GanttBlock),
      (∀ p ∈ recs, 0 < p.burst_time) →
      PendOK recs pending →
      QueueOK recs time queue →
      (pending ++ queue).Nodup →
      (tl = [] → ∀ j ∈ queue, (getP recs j).start_time = none) →
      MidOK t0 recs time tl →
      (∀ p ∈ (rrAdmit recs time pending queue).1, 0 < p.burst_time) ∧
        PendOK (rrAdmit recs time pending queue).1
          (rrAdmit recs time pending queue).2.1 ∧
        QueueOK (rrAdmit recs time pending queue).1 time
          (rrAdmit recs time pending queue).2.2 ∧
        ((rrAdmit recs time pending queue).2.1 ++
          (rrAdmit recs time pending queue).2.2).Nodup ∧
        (tl = [] → ∀ j ∈ (rrAdmit recs time pending queue).2.2,
          (getP (rrAdmit recs time pending queue).1 j).start_time = none) ∧
        MidOK t0 (rrAdmit recs time pending queue).1 time tl ∧
        (rrAdmit recs time pending queue).1.length = recs.length ∧
        ∃ adm, pending = adm ++ (rrAdmit recs time pending queue).2.1 ∧
          (rrAdmit recs time pending queue).2.2 = queue ++ adm ∧
          (∀ i, i ∉ adm → getP (rrAdmit recs time pending queue).1 i = getP recs i) ∧
          (adm = [] → (rrAdmit recs time pending queue).1 = recs)
  | [], recs, time, queue, tl, hb, hpend, hqueue, hnd, hsn, hmid =>
    ⟨hb, fun j hj => absurd hj (List.not_mem_nil j), hqueue, by simpa using hnd,
      hsn, hmid, rfl,
      ⟨[], rfl, (List.append_nil queue).symm, fun i _ => rfl, fun _ => rfl⟩⟩
  | j :: rest, recs, time, queue, tl, hb, hpend, hqueue, hnd, hsn, hmid => by
    obtain ⟨hjl, hjc, hjs, hjr⟩ := hpend j (List.mem_cons_self j rest)
    rw [rrAdmit]
    split
    · -- j is admitted
      rename_i harr
      have hjrest : j ∉ rest := by
        have := hnd
        rw [List.cons_append, List.nodup_cons] at this
        exact fun hm => this.1 (List.mem_append.mpr (Or.inl hm))
      have hjqueue : j ∉ queue := by
        have := hnd
        rw [List.cons_append, List.nodup_cons] at this
        exact fun hm => this.1 (List.mem_append.mpr (Or.inr hm))
      have hglen : j < recs.length := hjl
      have hgset : getP (recs.set j { getP recs j with
          remaining_time := some (getP recs j).burst_time }) j =
          { getP recs j with remaining_time := some (getP recs j).burst_time } := by
        rw [getP_set, if_pos ⟨rfl, hglen⟩]
      have hguns : ∀ i, ¬ (j = i) → getP (recs.set j { getP recs j with
          remaining_time := some (getP recs j).burst_time }) i = getP recs i := by
        intro i hij
        rw [getP_set, if_neg (fun hx => hij hx.1)]
      have hb1 : ∀ p ∈ recs.set j { getP recs j with
          remaining_time := some (getP recs j).burst_time }, 0 < p.burst_time := by
        intro p hp
        rcases List.mem_or_eq_of_mem_set hp with hp | rfl
        · exact hb p hp
        · exact hb (getP recs j) (getP_mem hglen)
      have hpend1 : PendOK (recs.set j { getP recs j with
          remaining_time := some (getP recs j).burst_time }) rest := by
        intro j' hj'
        have hne : ¬ (j = j') := fun he => hjrest (he ▸ hj')
        rw [List.length_set, hguns j' hne]
        exact hpend j' (List.mem_cons_of_mem j hj')
      have hqueue1 : QueueOK (recs.set j { getP recs j with
          remaining_time := some (getP recs j).burst_time }) time (queue ++ [j]) := by
        intro j' hj'
        rcases List.mem_append.mp hj' with hj' | hj'
        · have hne : ¬ (j = j') := fun he => hjqueue (he ▸ hj')
          rw [List.length_set, hguns j' hne]
          exact hqueue j' hj'
        · rw [List.mem_singleton.mp hj']
          rw [List.length_set, hgset]
          refine ⟨hglen, hjc, harr, ?_, (getP recs j).burst_time, rfl, ?_, ?_⟩
          · intro st hst
            have hcontra : (getP recs j).start_time = some st := hst
            rw [hjs] at hcontra
            cases hcontra
          · exact hb (getP recs j) (getP_mem hglen)
          · show (getP recs j).arrival_time +
              ((getP recs j).burst_time - (getP recs j).burst_time) ≤ time
            omega
      have hnd1 : (rest ++ (queue ++ [j])).Nodup := by
        rw [← List.append_assoc]
        refine (List.perm_append_singleton j (rest ++ queue)).nodup_iff.mpr ?_
        rw [List.cons_append] at hnd
        exact hnd
      have hsn1 : tl = [] → ∀ j' ∈ queue ++ [j],
          (getP (recs.set j { getP recs j with
            remaining_time := some (getP recs j).burst_time }) j').start_time = none := by
        intro htl j' hj'
        rcases List.mem_append.mp hj' with hj' | hj'
        · have hne : ¬ (j = j') := fun he => hjqueue (he ▸ hj')
          rw [hguns j' hne]
          exact hsn htl j' hj'
        · rw [List.mem_singleton.mp hj', hgset]
          exact hjs
      have hmid1 : MidOK t0 (recs.set j { getP recs j with
          remaining_time := some (getP recs j).burst_time }) time tl :=
        midOK_set_same rfl rfl rfl hmid
      obtain ⟨c1, c2, c3, c4, c5, c6, c7, adm', hd1, hd2, hd3, _⟩ :=
        rrAdmit_inv rest (recs.set j { getP recs j with
          remaining_time := some (getP recs j).burst_time }) time (queue ++ [j]) tl
          hb1 hpend1 hqueue1 hnd1 hsn1 hmid1
      refine ⟨c1, c2, c3, c4, c5, c6, by rw [c7, List.length_set],
        j :: adm', by rw [List.cons_append, ← hd1], ?_, ?_, ?_⟩
      · rw [hd2, List.append_assoc]
        rfl
      · intro i hi
        have hi1 : i ∉ adm' := fun hm => hi (List.mem_cons_of_mem j hm)
        have hi2 : ¬ (j = i) := fun he => hi (he ▸ List.mem_cons_self j adm')
        rw [hd3 i hi1, hguns i hi2]
      · intro hcc
        cases hcc
    · -- j has not arrived: admission stops
      exact ⟨hb, hpend, hqueue, hnd, hsn, hmid, rfl,
        ⟨[], rfl, (List.append_nil queue).symm, fun i _ => rfl, fun _ => rfl⟩⟩

theorem midOK_set_completion {t0 : Int} {recs : List Process} {time : Int}
    {tl : List GanttBlock} {c : Nat} {pc : Process}
    (hs : pc.start_time = (getP recs c).start_time)
    (ha : pc.arrival_time = (getP recs c).arrival_time)
    (hcval : pc.completion_time = some time)
    (hmid : MidOK t0 recs time tl) : MidOK t0 (recs.set c pc) time tl := by
  obtain ⟨ht0, hcomp, hstart, hch, hpos, hlast, hhead, hfin⟩ := hmid
  refine ⟨ht0, ?_, ?_, hch, hpos, hlast, ?_, ?_⟩
  · intro i hi cc hci
    rw [List.length_set] at hi
    rw [getP_set] at hci
    by_cases hij : c = i ∧ c < recs.length
    · rw [if_pos hij, hcval] at hci
      cases hci
      exact le_refl _
    · rw [if_neg hij] at hci
      exact hcomp i hi cc hci
  · intro i hi st hsi
    rw [List.length_set] at hi
    rw [getP_set] at hsi
    by_cases hij : c = i ∧ c < recs.length
    · rw [if_pos hij, hs] at hsi
      exact hstart i hi st (hij.1 ▸ hsi)
    · rw [if_neg hij] at hsi
      exact hstart i hi st hsi
  · intro hne
    obtain ⟨hh, hm⟩ := hhead hne
    refine ⟨hh, ?_⟩
    rcases hm with hm | hm
    · obtain ⟨i0, hi0, hs0⟩ := mem_recordedStarts.mp hm
      refine Or.inl (mem_recordedStarts.mpr ⟨i0, by simpa using hi0, ?_⟩)
      rw [getP_set]
      by_cases hij : c = i0 ∧ c < recs.length
      · rw [if_pos hij, hs, hij.1]
        exact hs0
      · rw [if_neg hij]
        exact hs0
    · exact Or.inr hm
  · intro hne
    by_cases hcc : c < recs.length
    · refine Or.inl ⟨c, by simpa using hcc, ?_⟩
      rw [getP_set, if_pos ⟨rfl, hcc⟩]
      exact hcval
    · rw [List.set_eq_of_length_le (Nat.le_of_not_lt hcc)]
      exact hfin hne

theorem rr_slice_setup {q t0 : Int} {recs1 : List Process}
    {pending1 queue1 : List Nat} {c : Nat} {time : Int} {tl : List GanttBlock}
    {rm : Int} {p'' : Process}
    (hq : 1 ≤ q)
    (hfarr : p''.arrival_time = (getP recs1 c).arrival_time)
    (hfburst : p''.burst_time = (getP recs1 c).burst_time)
    (hfst : (p''.start_time = some time ∧ (getP recs1 c).start_time = none) ∨
      (p''.start_time = (getP recs1 c).start_time ∧
        (getP recs1 c).start_time ≠ none))
    (hfcomp : p''.completion_time = (getP recs1 c).completion_time)
    (hcorner : tl = [] → p''.start_time = some time)
    (hcl : c < recs1.length)
    (hccomp : (getP recs1 c).completion_time = none)
    (hcarr : (getP recs1 c).arrival_time ≤ time)
    (hrm1 : 1 ≤ rm)
    (hb1 : ∀ p ∈ recs1, 0 < p.burst_time)
    (hpend1 : PendOK recs1 pending1)
    (hq1 : QueueOK recs1 time queue1)
    (hnd1 : (pending1 ++ (c :: queue1)).Nodup)
    (hmid1 : MidOK t0 recs1 time tl) :
    (∀ p ∈ recs1.set c p'', 0 < p.burst_time) ∧
      PendOK (recs1.set c p'') pending1 ∧
      QueueOK (recs1.set c p'') (time + min q rm) queue1 ∧
      (pending1 ++ queue1).Nodup ∧
      ((tl ++ [((time, time + min q rm, (getP recs1 c).pid) : GanttBlock)]) = [] →
        ∀ j ∈ queue1, (getP (recs1.set c p'') j).start_time = none) ∧
      MidOK t0 (recs1.set c p'') (time + min q rm)
        (tl ++ [((time, time + min q rm, (getP recs1 c).pid) : GanttBlock)]) ∧
      c ∉ pending1 ∧ c ∉ queue1 := by
  have hrun : 0 < min q rm := lt_min (by omega) (by omega)
  have hcp1 : c ∉ pending1 := by
    intro hm
    exact (List.disjoint_of_nodup_append hnd1) hm (List.mem_cons_self c queue1)
  have hcq1 : c ∉ queue1 := by
    have hcn := (List.nodup_append.mp hnd1).2.1
    exact (List.nodup_cons.mp hcn).1
  have hguns : ∀ i, ¬ (c = i) → getP (recs1.set c p'') i = getP recs1 i := by
    intro i hic
    rw [getP_set, if_neg (fun hx => hic hx.1)]
  refine ⟨?_, ?_, ?_, ?_, ?_, ?_, hcp1, hcq1⟩
  · intro p hp
    rcases List.mem_or_eq_of_mem_set hp with hp | rfl
    · exact hb1 p hp
    · rw [hfburst]
      exact hb1 (getP recs1 c) (getP_mem hcl)
  · intro j hj
    have hne : ¬ (c = j) := fun he => hcp1 (he ▸ hj)
    rw [List.length_set, hguns j hne]
    exact hpend1 j hj
  · intro j hj
    have hne : ¬ (c = j) := fun he => hcq1 (he ▸ hj)
    rw [List.length_set, hguns j hne]
    exact queueOK_mono hq1 (by omega) j hj
  · have hsub : (pending1 ++ queue1).Sublist (pending1 ++ (c :: queue1)) :=
      List.Sublist.append_left (List.sublist_cons_self c queue1) pending1
    exact hsub.nodup hnd1
  · intro habs
    exact absurd habs (by simp)
  · refine midOK_slice c hcl (min q rm) hrun hccomp hcarr ?_ hfcomp hfarr hcorner hmid1
    rcases hfst with ⟨h1, h2⟩ | ⟨h1, _⟩
    · exact Or.inl ⟨h1, h2⟩
    · exact Or.inr h1

theorem rr_slice_requeue_ok {q t0 : Int} {recs1 : List Process}
    {pending1 queue1 : List Nat} {c : Nat} {time : Int} {tl : List GanttBlock}
    {rm : Int} {p'' : Process}
    (hq : 1 ≤ q)
    (hfarr : p''.arrival_time = (getP recs1 c).arrival_time)
    (hfburst : p''.burst_time = (getP recs1 c).burst_time)
    (hfst : (p''.start_time = some time ∧ (getP recs1 c).start_time = none) ∨
      (p''.start_time = (getP recs1 c).start_time ∧
        (getP recs1 c).start_time ≠ none))
    (hfcomp : p''.completion_time = (getP recs1 c).completion_time)
    (hfrem : p''.remaining_time = some (rm - min q rm))
    (hcorner : tl = [] → p''.start_time = some time)
    (hcl : c < recs1.length)
    (hccomp : (getP recs1 c).completion_time = none)
    (hcarr : (getP recs1 c).arrival_time ≤ time)
    (hcst : ∀ st, (getP recs1 c).start_time = some st →
      (getP recs1 c).arrival_time ≤ st)
    (hrm1 : 1 ≤ rm)
    (hrmtrack : (getP recs1 c).arrival_time +
      ((getP recs1 c).burst_time - rm) ≤ time)
    (hreq : 0 < rm - min q rm)
    (hb1 : ∀ p ∈ recs1, 0 < p.burst_time)
    (hpend1 : PendOK recs1 pending1)
    (hq1 : QueueOK recs1 time queue1)
    (hnd1 : (pending1 ++ (c :: queue1)).Nodup)
    (hdone1 : DoneOK recs1 pending1 (c :: queue1))
    (hmid1 : MidOK t0 recs1 time tl) :
    RROK t0 ⟨(rrAdmit (recs1.set c p'') (time + min q rm) pending1 queue1).1,
      (rrAdmit (recs1.set c p'') (time + min q rm) pending1 queue1).2.1,
      time + min q rm,
      (rrAdmit (recs1.set c p'') (time + min q rm) pending1 queue1).2.2 ++ [c],
      tl ++ [((time, time + min q rm, (getP recs1 c).pid) : GanttBlock)]⟩ := by
  obtain ⟨hb2, hpend2, hq2, hnd2, hsn2, hmid2, hcp1, hcq1⟩ :=
    rr_slice_setup hq hfarr hfburst hfst hfcomp hcorner hcl hccomp hcarr hrm1
      hb1 hpend1 hq1 hnd1 hmid1
  obtain ⟨b1, b2, b3, b4, b5, b6, b7, adm2, e1, e2, e3, _⟩ :=
    rrAdmit_inv pending1 (recs1.set c p'') (time + min q rm) queue1
      (tl ++ [((time, time + min q rm, (getP recs1 c).pid) : GanttBlock)])
      hb2 hpend2 hq2 hnd2 hsn2 hmid2
  have hcadm2 : c ∉ adm2 := by
    intro hm
    exact hcp1 (e1 ▸ List.mem_append.mpr (Or.inl hm))
  have hcl' : c < (recs1.set c p'').length := by simpa using hcl
  have hgc : getP (rrAdmit (recs1.set c p'') (time + min q rm) pending1 queue1).1 c
      = p'' := by
    rw [e3 c hcadm2, getP_set, if_pos ⟨rfl, hcl⟩]
  have hcp3 : c ∉ (rrAdmit (recs1.set c p'') (time + min q rm) pending1 queue1).2.1 := by
    intro hm
    exact hcp1 (e1 ▸ List.mem_append.mpr (Or.inr hm))
  have hcq3 : c ∉ (rrAdmit (recs1.set c p'') (time + min q rm) pending1 queue1).2.2 := by
    rw [e2]
    intro hm
    rcases List.mem_append.mp hm with hm | hm
    · exact hcq1 hm
    · exact hcadm2 hm
  unfold RROK
  dsimp only
  refine ⟨b1, b2, ?_, ?_, ?_, ?_, b6⟩
  · -- queue invariant for queue3 ++ [c]
    intro j hj
    rcases List.mem_append.mp hj with hj | hj
    · exact b3 j hj
    · rw [List.mem_singleton.mp hj]
      rw [hgc]
      refine ⟨by rw [b7, List.length_set]; exact hcl, ?_, ?_, ?_,
        rm - min q rm, hfrem, hreq, ?_⟩
      · rw [hfcomp]
        exact hccomp
      · rw [hfarr]
        have : 0 < min q rm := lt_min (by omega) (by omega)
        omega
      · intro st hst
        rcases hfst with ⟨h1, _⟩ | ⟨h1, _⟩
        · rw [h1] at hst
          cases hst
          rw [hfarr]
          exact hcarr
        · rw [h1] at hst
          rw [hfarr]
          exact hcst st hst
      · rw [hfarr, hfburst]
        have hm1 : min q rm ≤ rm := min_le_right q rm
        omega
  · -- the done records
    intro i hi hip hiq
    have hic : ¬ (c = i) := by
      intro he
      exact hiq (he ▸ List.mem_append.mpr (Or.inr (List.mem_singleton.mpr rfl)))
    have hiq3 : i ∉ (rrAdmit (recs1.set c p'') (time + min q rm) pending1 queue1).2.2 :=
      fun hm => hiq (List.mem_append.mpr (Or.inl hm))
    have hia2 : i ∉ adm2 := fun hm => hiq3 (e2 ▸ List.mem_append.mpr (Or.inr hm))
    have hip1 : i ∉ pending1 := by
      rw [e1]
      intro hm
      rcases List.mem_append.mp hm with hm | hm
      · exact hia2 hm
      · exact hip hm
    have hiq1 : i ∉ c :: queue1 := by
      intro hm
      rcases List.mem_cons.mp hm with rfl | hm
      · exact hic rfl
      · exact hiq3 (e2 ▸ List.mem_append.mpr (Or.inl hm))
    rw [e3 i hia2, getP_set, if_neg (fun hx => hic hx.1)]
    refine hdone1 i ?_ hip1 hiq1
    rw [b7, List.length_set] at hi
    exact hi
  · -- partition indices stay distinct
    rw [← List.append_assoc]
    refine (List.perm_append_singleton c _).nodup_iff.mpr ?_
    rw [List.nodup_cons]
    refine ⟨?_, b4⟩
    intro hm
    rcases List.mem_append.mp hm with hm | hm
    · exact hcp3 hm
    · exact hcq3 hm
  · intro habs
    exact absurd habs (by simp)

theorem rr_slice_complete_ok {q t0 : Int} {recs1 : List Process}
    {pending1 queue1 : List Nat} {c : Nat} {time : Int} {tl : List GanttBlock}
    {rm : Int} {p'' : Process}
    (hq : 1 ≤ q)
    (hfarr : p''.arrival_time = (getP recs1 c).arrival_time)
    (hfburst : p''.burst_time = (getP recs1 c).burst_time)
    (hfst : (p''.start_time = some time ∧ (getP recs1 c).start_time = none) ∨
      (p''.start_time = (getP recs1 c).start_time ∧
        (getP recs1 c).start_time ≠ none))
    (hfcomp : p''.completion_time = (getP recs1 c).completion_time)
    (hfrem : p''.remaining_time = some (rm - min q rm))
    (hcorner : tl = [] → p''.start_time = some time)
    (hcl : c < recs1.length)
    (hccomp : (getP recs1 c).completion_time = none)
    (hcarr : (getP recs1 c).arrival_time ≤ time)
    (hcst : ∀ st, (getP recs1 c).start_time = some st →
      (getP recs1 c).arrival_time ≤ st)
    (hrm1 : 1 ≤ rm)
    (hrmtrack : (getP recs1 c).arrival_time +
      ((getP recs1 c).burst_time - rm) ≤ time)
    (hreq : ¬ 0 < rm - min q rm)
    (hb1 : ∀ p ∈ recs1, 0 < p.burst_time)
    (hpend1 : PendOK recs1 pending1)
    (hq1 : QueueOK recs1 time queue1)
    (hnd1 : (pending1 ++ (c :: queue1)).Nodup)
    (hdone1 : DoneOK recs1 pending1 (c :: queue1))
    (hmid1 : MidOK t0 recs1 time tl) :
    RROK t0 ⟨((rrAdmit (recs1.set c p'') (time + min q rm) pending1 queue1).1).set c
        { getP (rrAdmit (recs1.set c p'') (time + min q rm) pending1 queue1).1 c with
          completion_time := some (time + min q rm) },
      (rrAdmit (recs1.set c p'') (time + min q rm) pending1 queue1).2.1,
      time + min q rm,
      (rrAdmit (recs1.set c p'') (time + min q rm) pending1 queue1).2.2,
      tl ++ [((time, time + min q rm, (getP recs1 c).pid) : GanttBlock)]⟩ := by
  have hrunrm : min q rm = rm := by
    have hm1 : min q rm ≤ rm := min_le_right q rm
    omega
  obtain ⟨hb2, hpend2, hq2, hnd2, hsn2, hmid2, hcp1, hcq1⟩ :=
    rr_slice_setup hq hfarr hfburst hfst hfcomp hcorner hcl hccomp hcarr hrm1
      hb1 hpend1 hq1 hnd1 hmid1
  obtain ⟨b1, b2, b3, b4, b5, b6, b7, adm2, e1, e2, e3, _⟩ :=
    rrAdmit_inv pending1 (recs1.set c p'') (time + min q rm) queue1
      (tl ++ [((time, time + min q rm, (getP recs1 c).pid) : GanttBlock)])
      hb2 hpend2 hq2 hnd2 hsn2 hmid2
  have hcadm2 : c ∉ adm2 := by
    intro hm
    exact hcp1 (e1 ▸ List.mem_append.mpr (Or.inl hm))
  have hgc : getP (rrAdmit (recs1.set c p'') (time + min q rm) pending1 queue1).1 c
      = p'' := by
    rw [e3 c hcadm2, getP_set, if_pos ⟨rfl, hcl⟩]
  have hcp3 : c ∉ (rrAdmit (recs1.set c p'') (time + min q rm) pending1 queue1).2.1 := by
    intro hm
    exact hcp1 (e1 ▸ List.mem_append.mpr (Or.inr hm))
  have hcq3 : c ∉ (rrAdmit (recs1.set c p'') (time + min q rm) pending1 queue1).2.2 := by
    rw [e2]
    intro hm
    rcases List.mem_append.mp hm with hm | hm
    · exact hcq1 hm
    · exact hcadm2 hm
  have hcl3 : c < (rrAdmit (recs1.set c p'') (time + min q rm) pending1 queue1).1.length := by
    rw [b7, List.length_set]
    exact hcl
  have hguns3 : ∀ i, ¬ (c = i) →
      getP (((rrAdmit (recs1.set c p'') (time + min q rm) pending1 queue1).1).set c
        { getP (rrAdmit (recs1.set c p'') (time + min q rm) pending1 queue1).1 c with
          completion_time := some (time + min q rm) }) i =
      getP (rrAdmit (recs1.set c p'') (time + min q rm) pending1 queue1).1 i := by
    intro i hic
    rw [getP_set, if_neg (fun hx => hic hx.1)]
  have hgc4 : getP (((rrAdmit (recs1.set c p'') (time + min q rm) pending1 queue1).1).set c
      { getP (rrAdmit (recs1.set c p'') (time + min q rm) pending1 queue1).1 c with
        completion_time := some (time + min q rm) }) c =
      { p'' with completion_time := some (time + min q rm) } := by
    rw [getP_set, if_pos ⟨rfl, hcl3⟩, hgc]
  unfold RROK
  dsimp only
  refine ⟨?_, ?_, ?_, ?_, ?_, ?_, ?_⟩
  · intro p hp
    rcases List.mem_or_eq_of_mem_set hp with hp | rfl
    · exact b1 p hp
    · show 0 < (getP (rrAdmit (recs1.set c p'') (time + min q rm)
        pending1 queue1).1 c).burst_time
      exact b1 _ (getP_mem hcl3)
  · intro j hj
    have hne : ¬ (c = j) := fun he => hcp3 (he ▸ hj)
    rw [List.length_set, hguns3 j hne]
    exact b2 j hj
  · intro j hj
    have hne : ¬ (c = j) := fun he => hcq3 (he ▸ hj)
    rw [List.length_set, hguns3 j hne]
    exact b3 j hj
  · intro i hi hip hiq
    rw [List.length_set, b7, List.length_set] at hi
    by_cases hic : c = i
    · subst hic
      rw [hgc4]
      have hbc : 0 < (getP recs1 c).burst_time := hb1 _ (getP_mem hcl)
      unfold CoreInv
      dsimp only
      rcases hfst with ⟨h1, _⟩ | ⟨h1, h2⟩
      · exact ⟨time, time + min q rm, h1, rfl,
          by rw [hfarr]; exact hcarr, by omega,
          by rw [hfarr, hfburst]; omega⟩
      · obtain ⟨st, hstv⟩ := Option.ne_none_iff_exists'.mp h2
        have hstle : st ≤ time := (hmid1.2.2.1 c hcl st hstv).2
        exact ⟨st, time + min q rm, by rw [h1]; exact hstv, rfl,
          by rw [hfarr]; exact hcst st hstv, by omega,
          by rw [hfarr, hfburst]; omega⟩
    · rw [hguns3 i hic]
      have hiq3 : i ∉ (rrAdmit (recs1.set c p'') (time + min q rm)
          pending1 queue1).2.2 := hiq
      have hia2 : i ∉ adm2 := fun hm => hiq3 (e2 ▸ List.mem_append.mpr (Or.inr hm))
      have hip1 : i ∉ pending1 := by
        rw [e1]
        intro hm
        rcases List.mem_append.mp hm with hm | hm
        · exact hia2 hm
        · exact hip hm
      have hiq1 : i ∉ c :: queue1 := by
        intro hm
        rcases List.mem_cons.mp hm with rfl | hm
        · exact hic rfl
        · exact hiq3 (e2 ▸ List.mem_append.mpr (Or.inl hm))
      rw [e3 i hia2, getP_set, if_neg (fun hx => hic hx.1)]
      exact hdone1 i hi hip1 hiq1
  · exact b4
  · intro habs
    exact absurd habs (by simp)
  · refine midOK_set_completion rfl rfl rfl b6

theorem rrStep_ok {q t0 : Int} {s s' : RRState} (hq : 1 ≤ q)
    (h : rrStep q s = some s') (hinv : RROK t0 s) : RROK t0 s' := by
  obtain ⟨hb, hpend, hqueue, hdone, hnd, hsn, hmid⟩ := hinv
  rw [rrStep] at h
  split at h
  · cases h
  · obtain ⟨a1, a2, a3, a4, a5, a6, a7, adm, hd1, hd2, hd3, hd4⟩ :=
      rrAdmit_inv s.pending s.recs s.time s.queue s.schedule
        hb hpend hqueue hnd hsn hmid
    dsimp only at h
    split at h
    · rename_i heq
      have hqa : s.queue ++ adm = [] := by rw [← hd2, heq]
      have hadm : adm = [] := (List.append_eq_nil.mp hqa).2
      have hsq : s.queue = [] := (List.append_eq_nil.mp hqa).1
      have hrecs : (rrAdmit s.recs s.time s.pending s.queue).1 = s.recs :=
        hd4 hadm
      split at h
      · cases h
      · rename_i j rest heqp
        have hsp : s.pending = j :: rest := by
          rw [hd1, hadm, heqp]
          rfl
        have hdone2 : DoneOK (rrAdmit s.recs s.time s.pending s.queue).1
            (j :: rest) [] := by
          intro i hi hip _
          rw [hrecs] at hi ⊢
          have hips : i ∉ s.pending := by rw [hsp]; exact hip
          have hiqs : i ∉ s.queue := by rw [hsq]; exact List.not_mem_nil i
          exact hdone i hi hips hiqs
        have hnd2 : ((j :: rest : List Nat) ++ ([] : List Nat)).Nodup := by
          rw [← heqp, ← heq]
          exact a4
        have hpend2 : PendOK (rrAdmit s.recs s.time s.pending s.queue).1
            (j :: rest) := heqp ▸ a2
        split at h
        · rename_i hlt
          cases h
          refine ⟨a1, hpend2, fun i hi => absurd hi (List.not_mem_nil i),
            hdone2, hnd2, fun _ i hi => absurd hi (List.not_mem_nil i), ?_⟩
          refine midOK_idle a6 hlt ?_
          obtain ⟨hjl, hjc, _, _⟩ := hpend2 j (List.mem_cons_self j rest)
          exact ⟨j, hjl, hjc, le_refl _⟩
        · cases h
          exact ⟨a1, hpend2, fun i hi => absurd hi (List.not_mem_nil i),
            hdone2, hnd2, fun _ i hi => absurd hi (List.not_mem_nil i), a6⟩
    · rename_i c queue1 heq
      rw [heq] at a3 a4 a5
      obtain ⟨hcl, hccomp, hcarr, hcst, rm0, hrm, hrm1, hrmtrack⟩ :=
        a3 c (List.mem_cons_self c queue1)
      have hq1 : QueueOK (rrAdmit s.recs s.time s.pending s.queue).1 s.time
          queue1 := fun i hi => a3 i (List.mem_cons_of_mem c hi)
      have hqa : c :: queue1 = s.queue ++ adm := by rw [← heq, hd2]
      have hdone2 : DoneOK (rrAdmit s.recs s.time s.pending s.queue).1
          (rrAdmit s.recs s.time s.pending s.queue).2.1 (c :: queue1) := by
        intro i hi hip hiq
        have hia : i ∉ adm := fun hm =>
          hiq (hqa ▸ List.mem_append.mpr (Or.inr hm))
        have hisq : i ∉ s.queue := fun hm =>
          hiq (hqa ▸ List.mem_append.mpr (Or.inl hm))
        have hisp : i ∉ s.pending := by
          rw [hd1]
          intro hm
          rcases List.mem_append.mp hm with hm | hm
          · exact hia hm
          · exact hip hm
        rw [a7] at hi
        rw [hd3 i hia]
        exact hdone i hi hisp hisq
      by_cases hst0 :
          (getP (rrAdmit s.recs s.time s.pending s.queue).1 c).start_time = none
      · rw [if_pos hst0] at h
        dsimp only at h
        rw [hrm, if_neg (Option.some_ne_none rm0)] at h
        simp only [Option.getD_some] at h
        by_cases hreq : 0 < rm0 - min q rm0
        · rw [if_pos hreq] at h
          cases h
          exact rr_slice_requeue_ok hq rfl rfl (Or.inl ⟨rfl, hst0⟩) rfl rfl
            (fun _ => rfl) hcl hccomp hcarr hcst hrm1 hrmtrack hreq
            a1 a2 hq1 a4 hdone2 a6
        · rw [if_neg hreq] at h
          cases h
          exact rr_slice_complete_ok hq rfl rfl (Or.inl ⟨rfl, hst0⟩) rfl rfl
            (fun _ => rfl) hcl hccomp hcarr hcst hrm1 hrmtrack hreq
            a1 a2 hq1 a4 hdone2 a6
      · rw [if_neg hst0] at h
        rw [hrm] at h
        simp only [Option.getD_some] at h
        have hcorner : s.schedule = [] →
            (getP (rrAdmit s.recs s.time s.pending s.queue).1 c).start_time =
              some s.time :=
          fun htl => absurd (a5 htl c (List.mem_cons_self c queue1)) hst0
        by_cases hreq : 0 < rm0 - min q rm0
        · rw [if_pos hreq] at h
          cases h
          exact rr_slice_requeue_ok hq rfl rfl (Or.inr ⟨rfl, hst0⟩) rfl rfl
            hcorner hcl hccomp hcarr hcst hrm1 hrmtrack hreq
            a1 a2 hq1 a4 hdone2 a6
        · rw [if_neg hreq] at h
          cases h
          exact rr_slice_complete_ok hq rfl rfl (Or.inr ⟨rfl, hst0⟩) rfl rfl
            hcorner hcl hccomp hcarr hcst hrm1 hrmtrack hreq
            a1 a2 hq1 a4 hdone2 a6

theorem rrStep_none {q t0 : Int} {s : RRState} (hinv : RROK t0 s)
    (h : rrStep q s = none) : s.pending = [] ∧ s.queue = [] := by
  obtain ⟨hb, hpend, hqueue, hdone, hnd, hsn, hmid⟩ := hinv
  rw [rrStep] at h
  split at h
  · rename_i hyp
    exact hyp
  · obtain ⟨a1, a2, a3, a4, a5, a6, a7, adm, hd1, hd2, hd3, hd4⟩ :=
      rrAdmit_inv s.pending s.recs s.time s.queue s.schedule
        hb hpend hqueue hnd hsn hmid
    dsimp only at h
    split at h
    · rename_i heq
      split at h
      · rename_i heqp
        have hqa : s.queue ++ adm = [] := by rw [← hd2, heq]
        have hadm : adm = [] := (List.append_eq_nil.mp hqa).2
        have hsq : s.queue = [] := (List.append_eq_nil.mp hqa).1
        have hsp : s.pending = [] := by rw [hd1, hadm, heqp]; rfl
        exact ⟨hsp, hsq⟩
      · split at h <;> cases h
    · split at h <;> (try split at h) <;> (try split at h) <;>
        (try split at h) <;> cases h

theorem rrLoop_ok {q t0 : Int} (hq : 1 ≤ q) :
    ∀ (fuel : Nat) (s r : RRState), rrLoop q fuel s = some r → RROK t0 s →
      RROK t0 r ∧ r.pending = [] ∧ r.queue = []
  | 0, s, r, h, _ => by
    rw [rrLoop] at h
    cases h
  | Nat.succ fuel, s, r, h, hinv => by
    rw [rrLoop] at h
    split at h
    · rename_i hnone
      cases h
      exact ⟨hinv, rrStep_none hinv hnone⟩
    · rename_i s2 hsome
      exact rrLoop_ok hq fuel s2 r h (rrStep_ok hq hsome hinv)

theorem rrInit_ok {ps : List Process} (hwf : WF ps) :
    ∃ t0, RROK t0 (rrInit ps) := by
  refine ⟨(rrInit ps).time, ?_⟩
  have hperm : (sortBy (rrLe (reset_processes ps)) (List.range ps.length)).Perm
      (List.range ps.length) := sortBy_perm _ _
  have hlen : (reset_processes ps).length = ps.length := List.length_map _ _
  have hmem : ∀ j ∈ sortBy (rrLe (reset_processes ps)) (List.range ps.length),
      j < ps.length := fun j hj => List.mem_range.mp (hperm.mem_iff.mp hj)
  unfold RROK rrInit
  dsimp only
  refine ⟨?_, ?_, ?_, ?_, ?_, ?_, ?_⟩
  · intro p hp
    obtain ⟨p0, hp0, rfl⟩ := List.mem_map.mp hp
    exact (hwf.1 p0 hp0).1
  · intro j hj
    have hjl : j < ps.length := hmem j hj
    have hjl2 : j < (reset_processes ps).length := by rw [hlen]; exact hjl
    refine ⟨hjl2, ?_, ?_, ?_⟩ <;>
      · rw [show reset_processes ps = ps.map resetP from rfl, getP_map resetP hjl]
        rfl
  · intro j hj
    exact absurd hj (List.not_mem_nil j)
  · intro i hi hip _
    rw [hlen] at hi
    exact absurd (hperm.mem_iff.mpr (List.mem_range.mpr hi)) hip
  · rw [List.append_nil]
    exact hperm.nodup_iff.mpr (List.nodup_range ps.length)
  · intro _ j hj
    exact absurd hj (List.not_mem_nil j)
  · refine ⟨le_refl _, ?_, ?_, trivial,
      fun b hb => absurd hb (List.not_mem_nil b), Or.inl ⟨rfl, rfl⟩,
      fun hne => absurd rfl hne, fun hne => absurd rfl hne⟩
    · intro i hi c hc
      rw [hlen] at hi
      rw [show reset_processes ps = ps.map resetP from rfl,
        getP_map resetP hi] at hc
      exact Option.noConfusion hc
    · intro i hi st hst
      rw [hlen] at hi
      rw [show reset_processes ps = ps.map resetP from rfl,
        getP_map resetP hi] at hst
      exact Option.noConfusion hst

theorem rr_claims {ps : List Process} {q : Int}
    {r : List Process × List GanttBlock} (hwf : WF ps) (hq : 0 < q)
    (h : round_robin ps q = Except.ok r) :
    (∀ i, i < r.1.length → RecordInv (getP r.1 i)) ∧ TimelineOK r.1 r.2 := by
  unfold round_robin at h
  rw [if_neg (by omega : ¬ q ≤ 0)] at h
  obtain ⟨t0, hinit⟩ := rrInit_ok hwf
  cases hloop : rrLoop q (rrFuel ps) (rrInit ps) with
  | none => rw [hloop] at h; cases h
  | some sf =>
    rw [hloop] at h
    cases h
    obtain ⟨hrok, hp, hqe⟩ :=
      rrLoop_ok (by omega) (rrFuel ps) (rrInit ps) sf hloop hinit
    obtain ⟨hb, hpend, hqueue, hdone, hnd, hsn, hmid⟩ := hrok
    have hall : ∀ i, i < sf.recs.length → CoreInv (getP sf.recs i) := by
      intro i hi
      refine hdone i hi ?_ ?_
      · rw [hp]; exact List.not_mem_nil i
      · rw [hqe]; exact List.not_mem_nil i
    have hcl := finalOK_claims (midOK_finalOK hmid hall)
    rw [compute_metrics_fst]
    exact hcl

/-- **C2.** For every well-formed record list (positive bursts,
non-negative arrivals, distinct pids) and every algorithm — `fcfs`,
`sjf_non_preemptive`, `priority_non_preemptive`, and `round_robin` with a
positive quantum — every record after the algorithm returns satisfies the
full invariant bundle `RecordInv`: `completion_time ≥ start_time ≥
arrival_time`, `turnaround_time = completion_time − arrival_time`, and
`waiting_time = turnaround_time − burst_time ≥ 0`. -/
theorem algorithms_record_invariants (ps : List Process) (q : Int)
    (hwf : WF ps) (hq : 0 < q) :
    (∀ i, i < (fcfs ps).1.length → RecordInv (getP (fcfs ps).1 i)) ∧
      OnSome (sjf_non_preemptive ps)
        (fun r => ∀ i, i < r.1.length → RecordInv (getP r.1 i)) ∧
      OnSome (priority_non_preemptive ps)
        (fun r => ∀ i, i < r.1.length → RecordInv (getP r.1 i)) ∧
      OnOk (round_robin ps q)
        (fun r => ∀ i, i < r.1.length → RecordInv (getP r.1 i)) := by
  refine ⟨(fcfs_claims hwf).1, ?_, ?_, ?_⟩
  · cases hs : sjf_non_preemptive ps with
    | none => exact trivial
    | some r => exact (sjf_claims hwf hs).1
  · cases hs : priority_non_preemptive ps with
    | none => exact trivial
    | some r => exact (priority_claims hwf hs).1
  · cases hs : round_robin ps q with
    | error e => exact trivial
    | ok r => exact (rr_claims hwf hq hs).1

theorem algorithms_record_invariants_witness :
    WF exC ∧ (0 : Int) < 2 ∧
      ((∀ i, i < (fcfs exC).1.length → RecordInv (getP (fcfs exC).1 i)) ∧
        OnSome (sjf_non_preemptive exC)
          (fun r => ∀ i, i < r.1.length → RecordInv (getP r.1 i)) ∧
        OnSome (priority_non_preemptive exC)
          (fun r => ∀ i, i < r.1.length → RecordInv (getP r.1 i)) ∧
        OnOk (round_robin exC 2)
          (fun r => ∀ i, i < r.1.length → RecordInv (getP r.1 i))) :=
  ⟨by decide, by decide,
    algorithms_record_invariants exC 2 (by decide) (by decide)⟩

/-- **C3.** For every well-formed record list and every algorithm —
`fcfs`, `sjf_non_preemptive`, `priority_non_preemptive`, and `round_robin`
with a positive quantum — the returned timeline satisfies `TimelineOK`:
every interval has `end > start`, consecutive intervals are contiguous
(each starts exactly where the previous one ends, so there are no gaps and
no overlaps, idle intervals filling every gap), and a non-empty timeline
covers exactly `[min(start_time over processes ∪ idle starts), max
completion_time)`. -/
theorem algorithms_timeline_invariants (ps : List Process) (q : Int)
    (hwf : WF ps) (hq : 0 < q) :
    TimelineOK (fcfs ps).1 (fcfs ps).2 ∧
      OnSome (sjf_non_preemptive ps) (fun r => TimelineOK r.1 r.2) ∧
      OnSome (priority_non_preemptive ps) (fun r => TimelineOK r.1 r.2) ∧
      OnOk (round_robin ps q) (fun r => TimelineOK r.1 r.2) := by
  refine ⟨(fcfs_claims hwf).2, ?_, ?_, ?_⟩
  · cases hs : sjf_non_preemptive ps with
    | none => exact trivial
    | some r => exact (sjf_claims hwf hs).2
  · cases hs : priority_non_preemptive ps with
    | none => exact trivial
    | some r => exact (priority_claims hwf hs).2
  · cases hs : round_robin ps q with
    | error e => exact trivial
    | ok r => exact (rr_claims hwf hq hs).2

theorem algorithms_timeline_invariants_witness :
    WF exC ∧ (0 : Int) < 2 ∧
      (TimelineOK (fcfs exC).1 (fcfs exC).2 ∧
        OnSome (sjf_non_preemptive exC) (fun r => TimelineOK r.1 r.2) ∧
        OnSome (priority_non_preemptive exC) (fun r => TimelineOK r.1 r.2) ∧
        OnOk (round_robin exC 2) (fun r => TimelineOK r.1 r.2)) :=
  ⟨by decide, by decide,
    algorithms_timeline_invariants exC 2 (by decide) (by decide)⟩

/-- **C1.** For every record list and every quantum `≤ 0`, `round_robin`
fails with the configuration error `"Quantum must be > 0"` before any
scheduling work begins: no timeline is produced and the caller's records
are exactly as they were before the call. -/
theorem roundRobin_nonpositive_quantum_rejected (ps : List Process) (q : Int)
    (hq : q ≤ 0) :
    round_robin ps q = Except.error "Quantum must be > 0" ∧
      recordsAfterRR ps q = ps := by
  refine ⟨by simp [round_robin, if_pos hq], ?_⟩
  simp [recordsAfterRR, round_robin, if_pos hq]

/-- Witness for C1: the rejection at the concrete input `exC`, quantum `0`. -/
theorem roundRobin_nonpositive_quantum_rejected_witness :
    round_robin exC 0 = Except.error "Quantum must be > 0" ∧
      recordsAfterRR exC 0 = exC :=
  roundRobin_nonpositive_quantum_rejected exC 0 (by decide)

/-- **C4.** On the spec's worked example, `fcfs` produces exactly the
timeline `[(0,4,P1),(4,7,P2),(7,8,P3)]`, the waiting times are `P1 = 0`,
`P2 = 3`, `P3 = 5`, and `compute_metrics` on the resulting records returns
average waiting time `8/3`. -/
theorem fcfs_example_timeline_and_metrics :
    (fcfs exC).2 = [(0, 4, "P1"), (4, 7, "P2"), (7, 8, "P3")] ∧
      (fcfs exC).1.map (fun p => p.waiting_time) = [some 0, some 3, some 5] ∧
      (compute_metrics (fcfs exC).1).2.1 = 8 / 3 := by
  refine ⟨by decide, by decide, ?_⟩
  have h1 : (fcfs exC).1 =
      [⟨"P1", 0, 4, 0, some 0, some 4, some 0, some 4, some 4⟩,
       ⟨"P2", 1, 3, 0, some 4, some 7, some 3, some 6, some 3⟩,
       ⟨"P3", 2, 1, 0, some 7, some 8, some 5, some 6, some 1⟩] := by decide
  rw [h1]
  norm_num [compute_metrics, metricsLoop]

/-- **C6.** On the spec's worked example with quantum 2, the first
round-robin slice is `(0,2,P1)`, the ready queue immediately after that
slice is `P2, P3, P1` with `P1`'s remaining time 2 (arrivals during the
slice were enqueued before the preempted process), and the full timeline is
`[(0,2,P1),(2,4,P2),(4,5,P3),(5,7,P1),(7,8,P2)]`. -/
theorem roundRobin_example_trace :
    (rrStep 2 (rrInit exC)).map
        (fun s => (s.schedule, s.queue.map (fun j => (getP s.recs j).pid),
          (getP s.recs 0).remaining_time)) =
      some ([(0, 2, "P1")], ["P2", "P3", "P1"], some 2) ∧
      rrTimeline exC 2 =
        some [(0, 2, "P1"), (2, 4, "P2"), (4, 5, "P3"), (5, 7, "P1"), (7, 8, "P2")] := by
  exact ⟨by decide, by decide⟩

/-- **C9.** On the empty record list every algorithm returns the empty
timeline without error: the min-arrival clock initialisations fall back to
`0` and the scheduling loops are never entered. -/
theorem empty_input_empty_timeline :
    fcfs [] = ([], []) ∧
      sjf_non_preemptive [] = some ([], []) ∧
      priority_non_preemptive [] = some ([], []) ∧
      ∀ q : Int, 0 < q → round_robin [] q = Except.ok ([], []) := by
  refine ⟨by decide, by decide, by decide, fun q hq => ?_⟩
  simp [round_robin, rrInit, rrFuel, rrLoop, rrStep, reset_processes,
    compute_metrics, metricsLoop, sortBy, not_le.mpr hq]

/-- Witness for C9: the round-robin clause at the concrete quantum `2`. -/
theorem empty_input_empty_timeline_witness :
    round_robin [] 2 = Except.ok ([], []) :=
  empty_input_empty_timeline.2.2.2 2 (by decide)

end Scheduler
